import Mathlib

/-!
Verification development for the numerical linear-algebra core
(`engine_util_solve.c`): dense and sparse Cholesky, sparse LU,
3x3 symmetric eigendecomposition, and ellipsoid-constrained QCQP.

The scalar type `mjtNum` is modelled by `ℚ`.  The library square root
`mju_sqrt` has no exact total counterpart on `ℚ`, so every routine that
calls it takes an explicit parameter `sq : ℚ → ℚ`; theorems that depend
on square-root values carry explicit exactness hypotheses about the
arguments actually passed to `sq`, and all other theorems hold for an
arbitrary `sq`.
-/

namespace MjSolve

/-- Read a scalar from a flat buffer; out-of-range reads give 0. -/
def getl (l : List ℚ) (i : Nat) : ℚ := l.getD i 0

/-- Read an index from an integer buffer; out-of-range reads give 0. -/
def getn (l : List Nat) (i : Nat) : Nat := l.getD i 0

/-- Write a scalar into a flat buffer (no-op when out of range). -/
def setl (l : List ℚ) (i : Nat) (v : ℚ) : List ℚ := l.set i v

deriving instance DecidableEq for Except

/-- `mjMINVAL`, the fixed numerical floor used by the update routines. -/
def mjMINVAL : ℚ := 1 / 10^15

/-- Dot product of `k` leading entries of two windows of the same flat
buffer, mirroring `mju_dot(m+o1, m+o2, k)`. -/
def dotOff (m : List ℚ) (o1 o2 k : Nat) : ℚ :=
  (List.range k).foldl (fun acc t => acc + getl m (o1+t) * getl m (o2+t)) 0

/-- Result of `mju_cholFactor`: the factored buffer, the returned rank,
and the number of clamped pivots (the count of times `rank--` ran). -/
structure CholOut where
  mat : List ℚ
  rank : Int
  nclamp : Nat
deriving Repr, DecidableEq

/-- The pivot of column `j` in `mju_cholFactor`:
`mat[j*(n+1)] - mju_dot(mat+j*n, mat+j*n, j)` (the dot subtracted only
when `j` is nonzero, mirroring `if (j)`). -/
def cholPivot (mat : List ℚ) (n j : Nat) : ℚ :=
  let t0 := getl mat (j*(n+1))
  if j ≠ 0 then t0 - dotOff mat (j*n) (j*n) j else t0

/-- Column `j` of the `mju_cholFactor` loop: clamp the pivot to
`mindiag` when below (decrementing `rank`), store its square root, then
update the off-diagonal entries `mat[i*n+j]` for `j < i < n`. -/
def cholFactorStep (sq : ℚ → ℚ) (n : Nat) (mindiag : ℚ)
    (st : CholOut) (j : Nat) : CholOut :=
  let mat := st.mat
  let t1 := cholPivot mat n j
  let t2 := if t1 < mindiag then mindiag else t1
  let rank := if t1 < mindiag then st.rank - 1 else st.rank
  let nclamp := if t1 < mindiag then st.nclamp + 1 else st.nclamp
  let mat1 := setl mat (j*(n+1)) (sq t2)
  let tinv := 1 / getl mat1 (j*(n+1))
  let mat2 := (List.range (n - (j+1))).foldl (fun mm t =>
      let i := j + 1 + t
      setl mm (i*n + j) ((getl mm (i*n + j) - dotOff mm (i*n) (j*n) j) * tinv)) mat1
  ⟨mat2, rank, nclamp⟩

/-- `mju_cholFactor(mat, n, mindiag)`: in-place dense Cholesky
factorization `mat = L*L'` returning the rank.  The C routine has no
error path; the embedding is a total function. -/
def mju_cholFactor (sq : ℚ → ℚ) (mat : List ℚ) (n : Nat) (mindiag : ℚ) : CholOut :=
  (List.range n).foldl (cholFactorStep sq n mindiag) ⟨mat, (n : Int), 0⟩

/-- Dot product `mju_dot(m+off, v, k)` of a window of a matrix buffer
with the leading entries of a vector buffer. -/
def dotVec (m v : List ℚ) (off k : Nat) : ℚ :=
  (List.range k).foldl (fun acc t => acc + getl m (off+t) * getl v t) 0

/-- `mju_cholSolve(res, mat, vec, n)`: forward substitution `L*y = vec`
followed by backward substitution `L'*res = y`, on the factor produced
by `mju_cholFactor`. -/
def mju_cholSolve (mat vec : List ℚ) (n : Nat) : List ℚ :=
  let fwd := (List.range n).foldl (fun res i =>
    let res := if i ≠ 0 then setl res i (getl res i - dotVec mat res (i*n) i) else res
    setl res i (getl res i / getl mat (i*(n+1)))) vec
  (List.range n).foldl (fun res t =>
    let i := n - 1 - t
    let res := if i < n - 1 then
        (List.range (n - (i+1))).foldl (fun rr u =>
          let j := i + 1 + u
          setl rr i (getl rr i - getl mat (j*n+i) * getl rr j)) res
      else res
    setl res i (getl res i / getl mat (i*(n+1)))) fwd

/-- Result of `mju_cholUpdate`: the updated factor, the final contents of
the (mutated) update-vector buffer `x`, the number of clamped diagonals
(the routine returns `n - nclamp`), and the list of arguments that were
passed to `mju_sqrt` during the call. -/
structure UpdOut where
  cols : List (ℚ × List ℚ)
  x : List ℚ
  nclamp : Nat
  trace : List ℚ
deriving Repr, DecidableEq

/-- `mju_cholUpdate(mat, x, n, flg_plus)`: rank-one update/downdate
`L*L' ± x*x'`.  The lower-triangular factor is represented column by
column: entry `(Lkk, col)` of the list holds the diagonal `mat[k*(n+1)]`
and the below-diagonal column `mat[i*n+k]` for `k < i < n`; the C loop
for column `k` touches exactly these entries plus `x[k+1..n-1]`, so the
in-place pass is the structural recursion below.  Columns with
`x[k] == 0` are skipped. -/
def mju_cholUpdate (sq : ℚ → ℚ) : List (ℚ × List ℚ) → List ℚ → Bool → UpdOut
  | [], x, _ => ⟨[], x, 0, []⟩
  | (Lkk, col) :: rest, [], flgPlus =>
    let o := mju_cholUpdate sq rest [] flgPlus
    ⟨(Lkk, col) :: o.cols, o.x, o.nclamp, o.trace⟩
  | (Lkk, col) :: rest, xk :: xr, flgPlus =>
    if xk = 0 then
      let o := mju_cholUpdate sq rest xr flgPlus
      ⟨(Lkk, col) :: o.cols, xk :: o.x, o.nclamp, o.trace⟩
    else
      let tmp := Lkk*Lkk + (if flgPlus then xk*xk else -(xk*xk))
      let clamped := tmp < mjMINVAL
      let tmp2 := if clamped then mjMINVAL else tmp
      let r := sq tmp2
      let c := r / Lkk
      let cinv := 1 / c
      let s := xk / Lkk
      let col2 := if flgPlus then (col.zip xr).map (fun p => (p.1 + s*p.2)*cinv)
                  else (col.zip xr).map (fun p => (p.1 - s*p.2)*cinv)
      let xr2 := (xr.zip col2).map (fun p => c*p.1 - s*p.2)
      let o := mju_cholUpdate sq rest xr2 flgPlus
      ⟨(r, col2) :: o.cols, xk :: o.x,
        o.nclamp + (if clamped then 1 else 0), tmp2 :: o.trace⟩

/-- Well-formedness of the columnar factor representation against the
length of the update vector: column `k` stores `n-1-k` below-diagonal
entries when `x` has `n-k` entries left. -/
def colsWF : List (ℚ × List ℚ) → Nat → Prop
  | [], k => k = 0
  | (_, col) :: rest, k => k = col.length + 1 ∧ colsWF rest col.length

/-- All diagonal entries of the columnar factor are strictly positive. -/
def diagsPos : List (ℚ × List ℚ) → Prop
  | [] => True
  | (Lkk, _) :: rest => 0 < Lkk ∧ diagsPos rest

/-- `sq` behaves as an exact square root on every element of `l`. -/
def sqExactOn (sq : ℚ → ℚ) (l : List ℚ) : Prop :=
  ∀ t ∈ l, sq t * sq t = t ∧ 0 < sq t

/-! ### Sparse Cholesky (`mju_cholFactorSparse`, `mju_cholUpdateSparse`)

The sparse row storage is the `rownnz`/`rowadr`/`colind` triple plus the
flat values buffer, exactly as in the C code.  The caller-supplied arena
is modelled by its stack pointer: `mj_stackAlloc(d, n)` advances it by
`n`, `mjMARKSTACK`/`mjFREESTACK` save and restore it, and `mju_error`
aborts the computation (`Except.error`) leaving the pointer where it
was. -/

/-- Modelled from the spec: `mju_combineSparse` (engine_util_sparse.c is
not among the sources) computes `dst = scl1*dst + scl2*src` on two
sparse rows given as (column, value) lists with ascending column
indices, "preserving ascending column order and deduplicating indices",
and returns the merged row, whose length is the new nonzero count. -/
def combineEntries (scl1 scl2 : ℚ) : List (Nat × ℚ) → List (Nat × ℚ) → List (Nat × ℚ)
  | [], src => src.map (fun p => (p.1, scl2 * p.2))
  | dst, [] => dst.map (fun p => (p.1, scl1 * p.2))
  | (ci, vi) :: dt, (cj, vj) :: st =>
    if ci < cj then (ci, scl1*vi) :: combineEntries scl1 scl2 dt ((cj, vj) :: st)
    else if cj < ci then (cj, scl2*vj) :: combineEntries scl1 scl2 ((ci, vi) :: dt) st
    else (ci, scl1*vi + scl2*vj) :: combineEntries scl1 scl2 dt st
termination_by dst src => dst.length + src.length

/-- The (column, value) pairs of a stored sparse row of `nnz` entries
starting at offset `adr`. -/
def rowEntries (mat : List ℚ) (colind : List Nat) (adr nnz : Nat) : List (Nat × ℚ) :=
  (List.range nnz).map (fun t => (getn colind (adr+t), getl mat (adr+t)))

/-- Write a merged row back into the value and column-index buffers
starting at offset `adr`. -/
def writeRowEntries : List ℚ → List Nat → Nat → List (Nat × ℚ) → List ℚ × List Nat
  | m, ci, _, [] => (m, ci)
  | m, ci, a, (c, v) :: es => writeRowEntries (setl m a v) (ci.set a c) (a+1) es

/-- The `while (rownnz[r]>0 && colind[rowadr[r]+rownnz[r]-1]>r) rownnz[r]--;`
shrink loop of `mju_cholFactorSparse`, as a function of the initial
count. -/
def shrinkCount (colind : List Nat) (adr r : Nat) : Nat → Nat
  | 0 => 0
  | k+1 => if getn colind (adr+k) > r then shrinkCount colind adr r k else k+1

def cholDiagErr : String := "Matrix must have non-zero diagonal in mju_cholFactorSparse"

/-- The pre-factorization pass of `mju_cholFactorSparse`: shrink every
row so that its last stored entry is the diagonal and report a fatal
error for any row where this fails.  Only `rownnz` is read and written;
the values buffer `mat` is not an input. -/
def cholPrepassGo (colind rowadr : List Nat) : List Nat → List Nat → Except String (List Nat)
  | [], rn => .ok rn
  | r :: rs, rn =>
    let nnz := shrinkCount colind (getn rowadr r) r (getn rn r)
    if nnz = 0 then .error cholDiagErr
    else if getn colind (getn rowadr r + nnz - 1) ≠ r then .error cholDiagErr
    else cholPrepassGo colind rowadr rs (rn.set r nnz)

def cholPrepass (colind rowadr rownnz : List Nat) (n : Nat) : Except String (List Nat) :=
  cholPrepassGo colind rowadr (List.range n) rownnz

/-- One row `r` of the reverse-order backpass of `mju_cholFactorSparse`:
clamp and take the square root of the diagonal, scale the sub-diagonal
entries, then fold `mju_combineSparse` row updates into every earlier
row `c` with `mat(r,c) != 0`.  State: values, column indices, row
counts, rank. -/
def cholBackStep (sq : ℚ → ℚ) (mindiag : ℚ) (rowadr : List Nat)
    (st : List ℚ × List Nat × List Nat × Int) (r : Nat) :
    List ℚ × List Nat × List Nat × Int :=
  let mat := st.1
  let colind := st.2.1
  let rownnz := st.2.2.1
  let rank := st.2.2.2
  let nnz := getn rownnz r
  let adr := getn rowadr r
  let tmp := getl mat (adr+nnz-1)
  let tmp2 := if tmp < mindiag then mindiag else tmp
  let rank2 := if tmp < mindiag then rank - 1 else rank
  let mat1 := setl mat (adr+nnz-1) (sq tmp2)
  let tinv := 1 / getl mat1 (adr+nnz-1)
  let mat2 := (List.range (nnz-1)).foldl (fun mm i => setl mm (adr+i) (getl mm (adr+i) * tinv)) mat1
  (List.range (nnz-1)).foldl (fun st2 i =>
      let m := st2.1
      let ci := st2.2.1
      let rn := st2.2.2.1
      let c := getn ci (adr+i)
      let dst := rowEntries m ci (getn rowadr c) (getn rn c)
      let src := rowEntries m ci adr (i+1)
      let comb := combineEntries 1 (-(getl m (adr+i))) dst src
      let wr := writeRowEntries m ci (getn rowadr c) comb
      (wr.1, wr.2, rn.set c comb.length, st2.2.2.2)) (mat2, colind, rownnz, rank2)

/-- `mju_cholFactorSparse(mat, n, mindiag, rownnz, rowadr, colind, d)`.
Returns the routine result together with the arena stack pointer at the
moment the call exits: `mjMARKSTACK` saves `pstack`, the two
`mj_stackAlloc(d, n)` calls advance it by `2*n`, `mjFREESTACK` restores
it on the normal return path, and `mju_error` (modelled from the spec as
the channel that "aborts the current computation") propagates the error
with the pointer still advanced. -/
def mju_cholFactorSparse (sq : ℚ → ℚ) (mat : List ℚ) (n : Nat) (mindiag : ℚ)
    (rownnz rowadr colind : List Nat) (pstack : Nat) :
    Except String (List ℚ × List Nat × List Nat × Int) × Nat :=
  let p1 := pstack + n + n
  match cholPrepass colind rowadr rownnz n with
  | .error e => (.error e, p1)
  | .ok rn =>
    (.ok ((List.range n).foldl (fun st t => cholBackStep sq mindiag rowadr st (n - 1 - t))
      (mat, colind, rn, (n:Int))), pstack)

/-- Result of `mju_cholUpdateSparse`: buffers after the call, the rank,
and for each processed row the pair (`rownnz[row]`, first
`mju_combineSparse` return value), i.e. the data of the
`new_nnz != nnz-1` fatal check. -/
structure SpUpdOut where
  mat : List ℚ
  colind : List Nat
  x : List ℚ
  xind : List Nat
  rownnz : List Nat
  rank : Int
  events : List (Int × Int)
deriving Repr, DecidableEq

/-- The per-row quantities of one `mju_cholUpdateSparse` iteration for
the row `xind[idx]`: `tmp = diag^2 ± x[idx]^2` before clamping. -/
def updTmp (flgPlus : Bool) (rownnz rowadr : List Nat) (mat x : List ℚ)
    (xind : List Nat) (idx : Nat) : ℚ :=
  let row := getn xind idx
  let nnz := getn rownnz row
  let adr := getn rowadr row
  let xi := getl x idx
  let diag := getl mat (adr+nnz-1)
  diag*diag + (if flgPlus then xi*xi else -(xi*xi))

/-- The new diagonal `r = mju_sqrt(tmp)` after clamping to `mjMINVAL`. -/
def updR (sq : ℚ → ℚ) (flgPlus : Bool) (rownnz rowadr : List Nat) (mat x : List ℚ)
    (xind : List Nat) (idx : Nat) : ℚ :=
  sq (if updTmp flgPlus rownnz rowadr mat x xind idx < mjMINVAL then mjMINVAL
      else updTmp flgPlus rownnz rowadr mat x xind idx)

/-- The rank after the clamp test (`rank--` when `tmp < mjMINVAL`). -/
def updRank (flgPlus : Bool) (rownnz rowadr : List Nat) (mat x : List ℚ)
    (xind : List Nat) (idx : Nat) (rank : Int) : Int :=
  if updTmp flgPlus rownnz rowadr mat x xind idx < mjMINVAL then rank - 1 else rank

/-- The values buffer after `mat[adr+nnz-1] = r`. -/
def updMat1 (sq : ℚ → ℚ) (flgPlus : Bool) (rownnz rowadr : List Nat) (mat x : List ℚ)
    (xind : List Nat) (idx : Nat) : List ℚ :=
  let row := getn xind idx
  let nnz := getn rownnz row
  let adr := getn rowadr row
  setl mat (adr+nnz-1) (updR sq flgPlus rownnz rowadr mat x xind idx)

/-- The first `mju_combineSparse` of the iteration:
`mat(r,1:r-1) = (mat(r,1:r-1) + s*x(1:r-1)) / c` (its length is the
`new_nnz` of the fatal check). -/
def updComb (sq : ℚ → ℚ) (flgPlus : Bool) (rownnz rowadr : List Nat) (mat : List ℚ)
    (colind : List Nat) (x : List ℚ) (xind : List Nat) (idx : Nat) : List (Nat × ℚ) :=
  let row := getn xind idx
  let nnz := getn rownnz row
  let adr := getn rowadr row
  let xi := getl x idx
  let diag := getl mat (adr+nnz-1)
  let r := updR sq flgPlus rownnz rowadr mat x xind idx
  let c := r / diag
  let s := xi / diag
  combineEntries (1/c) (if flgPlus then s/c else -(s/c))
    (rowEntries (updMat1 sq flgPlus rownnz rowadr mat x xind idx) colind adr (nnz-1))
    (rowEntries x xind 0 idx)

/-- The second `mju_combineSparse` of the iteration:
`x(1:r-1) = c*x(1:r-1) - s*mat(r,1:r-1)`, reading the row updated by the
first combine. -/
def updCombX (sq : ℚ → ℚ) (flgPlus : Bool) (rownnz rowadr : List Nat) (mat : List ℚ)
    (colind : List Nat) (x : List ℚ) (xind : List Nat) (idx : Nat) : List (Nat × ℚ) :=
  let row := getn xind idx
  let nnz := getn rownnz row
  let adr := getn rowadr row
  let xi := getl x idx
  let diag := getl mat (adr+nnz-1)
  let r := updR sq flgPlus rownnz rowadr mat x xind idx
  let c := r / diag
  let s := xi / diag
  let wr := writeRowEntries (updMat1 sq flgPlus rownnz rowadr mat x xind idx) colind adr
    (updComb sq flgPlus rownnz rowadr mat colind x xind idx)
  combineEntries c (-s) (rowEntries x xind 0 idx) (rowEntries wr.1 wr.2 adr (nnz-1))

/-- The `while (i>=0)` loop of `mju_cholUpdateSparse`, with explicit
fuel (`none` = fuel exhausted before the loop finished). -/
def cholUpdLoop (sq : ℚ → ℚ) (flgPlus : Bool) (rownnz rowadr : List Nat) :
    Nat → List ℚ → List Nat → List ℚ → List Nat → Int → Int → List (Int × Int) →
    Option (Except String SpUpdOut)
  | 0, _, _, _, _, _, _, _ => none
  | fuel+1, mat, colind, x, xind, i, rank, events =>
    if i < 0 then some (.ok ⟨mat, colind, x, xind, rownnz, rank, events⟩)
    else
      let idx := i.toNat
      let nnz := getn rownnz (getn xind idx)
      let adr := getn rowadr (getn xind idx)
      let comb := updComb sq flgPlus rownnz rowadr mat colind x xind idx
      let wr := writeRowEntries (updMat1 sq flgPlus rownnz rowadr mat x xind idx) colind adr comb
      if (comb.length : Int) ≠ (nnz : Int) - 1 then
        some (.error "Varying sparsity pattern in mju_cholUpdateSparse")
      else
        let combx := updCombX sq flgPlus rownnz rowadr mat colind x xind idx
        let wx := writeRowEntries x xind 0 combx
        cholUpdLoop sq flgPlus rownnz rowadr fuel wr.1 wr.2 wx.1 wx.2
          ((combx.length : Int) - 1)
          (updRank flgPlus rownnz rowadr mat x xind idx rank)
          (events ++ [((nnz : Int), (comb.length : Int))])

/-- `mju_cholUpdateSparse(mat, x, n, flg_plus, ...)`, with the arena
stack pointer reported as in `mju_cholFactorSparse`. -/
def mju_cholUpdateSparse (sq : ℚ → ℚ) (mat : List ℚ) (x : List ℚ) (n : Nat) (flgPlus : Bool)
    (rownnz rowadr colind : List Nat) (xnnz : Nat) (xind : List Nat) (pstack fuel : Nat) :
    Option ((Except String SpUpdOut) × Nat) :=
  let p1 := pstack + n + n
  match cholUpdLoop sq flgPlus rownnz rowadr fuel mat colind x xind ((xnnz : Int) - 1) (n : Int) [] with
  | none => none
  | some (.error e) => some (.error e, p1)
  | some (.ok out) => some (.ok out, pstack)

/-! ### Sparse LU (`mju_factorLUSparse`, tree topology, no fill-in) -/

/-- Read from an integer-indexed buffer at a C `int` address; negative
addresses (out-of-bounds in C) read position 0. -/
def toIdx (z : Int) : Nat := z.toNat

/-- Read an entry of the `remaining` scratch array (C `int`s). -/
def geti (l : List Int) (i : Nat) : Int := l.getD i 0

def luFillErr : String := "mju_factorLUSparse requires fill-in"

def luIncompleteErr : String := "row processing incomplete in mju_factorLUSparse"

/-- The row-merge loop of `mju_factorLUSparse`:
`(j,k) = (j,k) - (i,k)*(j,i)` for the remaining entries of rows `i` and
`j`, advancing `jcnt` every iteration, advancing `icnt` only on a
column match, and failing on a column of row `i` that row `j` lacks;
afterwards the incomplete-processing check compares both counters to
their bounds.  `jleft` is the iteration count `jbound - jcnt`. -/
def lu_mergeLoop (colind : List Nat) (LUji : ℚ) (ibound jbound : Int) :
    Nat → Nat → Nat → List ℚ → Except String (List ℚ)
  | icnt, jcnt, 0, LU =>
    if (icnt : Int) ≠ ibound ∨ (jcnt : Int) ≠ jbound then .error luIncompleteErr
    else .ok LU
  | icnt, jcnt, jleft+1, LU =>
    if getn colind icnt = getn colind jcnt then
      lu_mergeLoop colind LUji ibound jbound (icnt+1) (jcnt+1) jleft
        (setl LU jcnt (getl LU jcnt - getl LU icnt * LUji))
    else if getn colind icnt > getn colind jcnt then
      lu_mergeLoop colind LUji ibound jbound icnt (jcnt+1) jleft LU
    else .error luFillErr

/-- Process one earlier row `j` during the elimination of row `i`:
if `(j,i)` is stored last among row `j`'s remaining entries, divide it
by the pivot and merge row `i` into row `j`. -/
def lu_rowStep (rowadr colind : List Nat) (i : Nat) (ii : Int)
    (st : List ℚ × List Int) (j : Nat) : Except String (List ℚ × List Int) :=
  let LU := st.1
  let rem := st.2
  let ji : Int := (getn rowadr j : Int) + geti rem j - 1
  if getn colind (toIdx ji) = i then
    let rem2 := rem.set j (geti rem j - 1)
    let LU2 := setl LU (toIdx ji) (getl LU (toIdx ji) / getl LU (toIdx ii))
    let LUji := getl LU2 (toIdx ji)
    let ibound : Int := (getn rowadr i : Int) + geti rem2 i
    let jbound : Int := (getn rowadr j : Int) + geti rem2 j
    match lu_mergeLoop colind LUji ibound jbound (getn rowadr i) (getn rowadr j)
        (jbound - (getn rowadr j : Int)).toNat LU2 with
    | .error e => .error e
    | .ok LU3 => .ok (LU3, rem2)
  else .ok (LU, rem)

/-- The body of the outer reverse loop of `mju_factorLUSparse` for a
diagonal index `i`: locate the diagonal, check its presence and
magnitude, then eliminate into every earlier row. -/
def lu_outerStep (rowadr colind : List Nat)
    (st : List ℚ × List Int) (i : Nat) : Except String (List ℚ × List Int) :=
  let LU := st.1
  let rem := st.2
  let ii : Int := (getn rowadr i : Int) + geti rem i - 1
  let rem1 := rem.set i (geti rem i - 1)
  if getn colind (toIdx ii) ≠ i then
    .error "missing diagonal element in mju_factorLUSparse"
  else if |getl LU (toIdx ii)| < mjMINVAL then
    .error "diagonal element too small in mju_factorLUSparse"
  else
    (List.range i).foldlM (fun st2 t => lu_rowStep rowadr colind i ii st2 (i - 1 - t))
      (LU, rem1)

/-- `mju_factorLUSparse(LU, n, scratch, rownnz, rowadr, colind)`:
reverse-order LU factorization without fill-in; returns the factored
buffer and the `remaining` scratch contents, or the fatal error. -/
def mju_factorLUSparse (LU : List ℚ) (n : Nat) (rownnz rowadr colind : List Nat) :
    Except String (List ℚ × List Int) :=
  let rem : List Int := rownnz.map (fun v => (v : Int))
  match (List.range n).foldlM (fun st t => lu_outerStep rowadr colind st (n - 1 - t))
      (LU, rem) with
  | .error e => .error e
  | .ok st =>
    match (List.range n).foldlM (fun (_ : Unit) i =>
        if geti st.2 i < 0 ∨ getn colind (toIdx ((getn rowadr i : Int) + geti st.2 i)) ≠ i
        then Except.error "unexpected sparse matrix structure in mju_factorLUSparse"
        else Except.ok ()) () with
    | .error e => .error e
    | .ok _ => .ok st

/-- The column indices stored in a window of `colind` of length `len`
starting at address `start` (the "remaining nonzero set" of a row
during the merge loop of `mju_factorLUSparse`). -/
def colsWin (colind : List Nat) (start len : Nat) : List Nat :=
  (List.range len).map (fun t => getn colind (start + t))

/-! ### Symmetric 3x3 eigendecomposition (`mju_eig3`) -/

def eigEPS : ℚ := 1/10^12

/-- Modelled from the spec: `mju_quat2Mat` (engine_util_spatial.c is not
among the sources) builds the row-major rotation matrix of a quaternion
`(w,x,y,z)`. -/
def mju_quat2Mat (q : List ℚ) : List ℚ :=
  let w := getl q 0
  let x := getl q 1
  let y := getl q 2
  let z := getl q 3
  [w*w + x*x - y*y - z*z, 2*(x*y - w*z), 2*(x*z + w*y),
   2*(x*y + w*z), w*w - x*x + y*y - z*z, 2*(y*z - w*x),
   2*(x*z - w*y), 2*(y*z + w*x), w*w - x*x - y*y + z*z]

/-- Modelled from the spec: `mju_mulQuat`, the Hamilton product of two
quaternions. -/
def mju_mulQuat (a b : List ℚ) : List ℚ :=
  let w1 := getl a 0
  let x1 := getl a 1
  let y1 := getl a 2
  let z1 := getl a 3
  let w2 := getl b 0
  let x2 := getl b 1
  let y2 := getl b 2
  let z2 := getl b 3
  [w1*w2 - x1*x2 - y1*y2 - z1*z2,
   w1*x2 + x1*w2 + y1*z2 - z1*y2,
   w1*y2 - x1*z2 + y1*w2 + z1*x2,
   w1*z2 + x1*y2 - y1*x2 + z1*w2]

/-- Modelled from the spec: `mju_normalize4` divides the quaternion by
its norm, resetting it to the unit quaternion when the norm is below
`mjMINVAL`. -/
def mju_normalize4 (sq : ℚ → ℚ) (q : List ℚ) : List ℚ :=
  let nrm := sq (getl q 0 * getl q 0 + getl q 1 * getl q 1
    + getl q 2 * getl q 2 + getl q 3 * getl q 3)
  if nrm < mjMINVAL then [1, 0, 0, 0]
  else [getl q 0 / nrm, getl q 1 / nrm, getl q 2 / nrm, getl q 3 / nrm]

/-- Row-major 3x3 product `A*B` (`mju_mulMatMat(·, A, B, 3, 3, 3)`). -/
def mulMat3 (A B : List ℚ) : List ℚ :=
  [getl A 0 * getl B 0 + getl A 1 * getl B 3 + getl A 2 * getl B 6,
   getl A 0 * getl B 1 + getl A 1 * getl B 4 + getl A 2 * getl B 7,
   getl A 0 * getl B 2 + getl A 1 * getl B 5 + getl A 2 * getl B 8,
   getl A 3 * getl B 0 + getl A 4 * getl B 3 + getl A 5 * getl B 6,
   getl A 3 * getl B 1 + getl A 4 * getl B 4 + getl A 5 * getl B 7,
   getl A 3 * getl B 2 + getl A 4 * getl B 5 + getl A 5 * getl B 8,
   getl A 6 * getl B 0 + getl A 7 * getl B 3 + getl A 8 * getl B 6,
   getl A 6 * getl B 1 + getl A 7 * getl B 4 + getl A 8 * getl B 7,
   getl A 6 * getl B 2 + getl A 7 * getl B 5 + getl A 8 * getl B 8]

/-- Row-major 3x3 product `A'*B` (`mju_mulMatTMat(·, A, B, 3, 3, 3)`). -/
def mulMatT3 (A B : List ℚ) : List ℚ :=
  [getl A 0 * getl B 0 + getl A 3 * getl B 3 + getl A 6 * getl B 6,
   getl A 0 * getl B 1 + getl A 3 * getl B 4 + getl A 6 * getl B 7,
   getl A 0 * getl B 2 + getl A 3 * getl B 5 + getl A 6 * getl B 8,
   getl A 1 * getl B 0 + getl A 4 * getl B 3 + getl A 7 * getl B 6,
   getl A 1 * getl B 1 + getl A 4 * getl B 4 + getl A 7 * getl B 7,
   getl A 1 * getl B 2 + getl A 4 * getl B 5 + getl A 7 * getl B 8,
   getl A 2 * getl B 0 + getl A 5 * getl B 3 + getl A 8 * getl B 6,
   getl A 2 * getl B 1 + getl A 5 * getl B 4 + getl A 8 * getl B 7,
   getl A 2 * getl B 2 + getl A 5 * getl B 5 + getl A 8 * getl B 8]

/-- One iteration body of the Jacobi loop of `mju_eig3`: returns
(whether a break condition fired, the eigenvalues read off the diagonal
of `D`, and the quaternion after the iteration - unchanged on break). -/
def eig3Step (sq : ℚ → ℚ) (mat quat : List ℚ) : Bool × List ℚ × List ℚ :=
  let R := mju_quat2Mat quat
  let D := mulMat3 (mulMatT3 R mat) R
  let e := [getl D 0, getl D 4, getl D 8]
  let rck : Nat × Nat × Nat :=
    if |getl D 1| > |getl D 2| ∧ |getl D 1| > |getl D 5| then (0, 1, 2)
    else if |getl D 2| > |getl D 5| then (0, 2, 1)
    else (1, 2, 0)
  let rk := rck.1
  let ck := rck.2.1
  let rotk := rck.2.2
  let tau := (getl D (4*ck) - getl D (4*rk)) / (2 * getl D (3*rk+ck))
  let t := if tau ≥ 0 then 1/(tau + sq (1 + tau*tau)) else -1/(-tau + sq (1 + tau*tau))
  let c := 1 / sq (1 + t*t)
  let broke := |getl D (3*rk+ck)| < eigEPS ∨ c > 1 - eigEPS
  let ax0 := if tau ≥ 0 then -(sq (1/2 - 1/2*c)) else sq (1/2 - 1/2*c)
  let ax := if rotk = 1 then -ax0 else ax0
  let tq := mju_normalize4 sq (setl [sq (1 - ax*ax), 0, 0, 0] (rotk+1) ax)
  let quat2 := mju_normalize4 sq (mju_mulQuat quat tq)
  (decide broke, e, if broke then quat else quat2)

/-- The Jacobi iteration of `mju_eig3`: returns the eigenvalues read off
`D` in the last executed iteration, the accumulated quaternion, and the
iteration count.  (In the C loop the `tau`/`c` quantities are only
computed when the first break test fails; they are pure, so hoisting
them into `eig3Step` preserves the loop's results.) -/
def eig3Loop (sq : ℚ → ℚ) (mat : List ℚ) : List ℚ → Nat → Nat → List ℚ × List ℚ × Nat
  | quat, 0, it => ([0, 0, 0], quat, it)
  | quat, fuel+1, it =>
    let st := eig3Step sq mat quat
    if st.1 then (st.2.1, st.2.2, it)
    else if fuel = 0 then (st.2.1, st.2.2, it+1)
    else eig3Loop sq mat st.2.2 fuel (it+1)

/-- `mju_cos(pi/4)` as written in the source. -/
def sortQuatC : ℚ := 707106781186548/10^15

/-- One pass of the eigenvalue bubble sort with lead index `j1`,
swapping the eigenvalues and rotating the quaternion when out of
order. -/
def eig3SortPass (sq : ℚ → ℚ) (st : List ℚ × List ℚ) (j1 : Nat) : List ℚ × List ℚ :=
  let e := st.1
  let quat := st.2
  if getl e j1 < getl e (j1+1) then
    (setl (setl e j1 (getl e (j1+1))) (j1+1) (getl e j1),
     mju_normalize4 sq (mju_mulQuat quat (setl [sortQuatC, 0, 0, 0] ((j1+2) % 3 + 1) sortQuatC)))
  else (e, quat)

/-- `mju_eig3(eigval, eigvec, quat, mat)`: Jacobi loop with a hard cap
of 500 iterations, then the fixed 3-comparison bubble pass over lead
indices 0, 1, 0 (`j1 = j % 2` for `j = 0, 1, 2`), then the final
eigenvector reconstruction.  Returns (eigval, eigvec, quat, iterations). -/
def mju_eig3 (sq : ℚ → ℚ) (mat : List ℚ) : List ℚ × List ℚ × List ℚ × Nat :=
  let lp := eig3Loop sq mat [1, 0, 0, 0] 500 0
  let s := eig3SortPass sq (eig3SortPass sq (eig3SortPass sq (lp.1, lp.2.1) 0) 1) 0
  (s.1, mju_quat2Mat s.2, s.2, lp.2.2)

/-! ### Ellipsoid-constrained QCQP (`mju_QCQP2`, `mju_QCQP3`, `mju_QCQP`) -/

/-- Result of a QCQP solve: the result vector and the
constrained/unconstrained flag; `uninit` is the outcome in which the
final unscaling would read `v1, v2[, v3]` without any Newton iteration
having assigned them (the hazard of claim C10). -/
inductive QRes where
  | out (res : List ℚ) (flag : Bool)
  | uninit
deriving Repr, DecidableEq

def QRes.resAt (q : QRes) (i : Nat) : ℚ :=
  match q with
  | .out res _ => getl res i
  | .uninit => 987654321

def QRes.flag (q : QRes) : Bool :=
  match q with
  | .out _ f => f
  | .uninit => false

/-- Outcome of the 2-D Newton loop: early return on loss of positive
definiteness, or fall-through with the latest `v` (None if no iteration
assigned it) and the final `la`. -/
inductive QLoop2 where
  | singular
  | finished (v : Option (ℚ × ℚ)) (la : ℚ)
deriving Repr, DecidableEq

/-- The `for (iter=0; iter<20; iter++)` Newton loop of `mju_QCQP2` on
the scaled data. -/
def qcqp2Loop (A11 A22 A12 b1 b2 r : ℚ) (v : Option (ℚ × ℚ)) (la : ℚ) : Nat → QLoop2
  | 0 => .finished v la
  | fuel+1 =>
    let det := (A11+la)*(A22+la) - A12*A12
    if det < 1/10^10 then .singular
    else
      let detinv := 1/det
      let P11 := (A22+la)*detinv
      let P22 := (A11+la)*detinv
      let P12 := -A12*detinv
      let v1 := -P11*b1 - P12*b2
      let v2 := -P12*b1 - P22*b2
      let val := v1*v1 + v2*v2 - r*r
      if val < 1/10^10 then .finished (some (v1, v2)) la
      else
        let deriv := -2*(P11*v1*v1 + 2*P12*v1*v2 + P22*v2*v2)
        let delta := -val/deriv
        if delta < 1/10^10 then .finished (some (v1, v2)) la
        else qcqp2Loop A11 A22 A12 b1 b2 r (some (v1, v2)) (la + delta) fuel

/-- Whether the 2-D Newton iteration encounters `det(A+la) < 1e-10`
before it converges or runs out of iterations. -/
def qcqp2Sing (A11 A22 A12 b1 b2 r : ℚ) (la : ℚ) : Nat → Bool
  | 0 => false
  | fuel+1 =>
    let det := (A11+la)*(A22+la) - A12*A12
    if det < 1/10^10 then true
    else
      let detinv := 1/det
      let P11 := (A22+la)*detinv
      let P22 := (A11+la)*detinv
      let P12 := -A12*detinv
      let v1 := -P11*b1 - P12*b2
      let v2 := -P12*b1 - P22*b2
      let val := v1*v1 + v2*v2 - r*r
      if val < 1/10^10 then false
      else
        let deriv := -2*(P11*v1*v1 + 2*P12*v1*v2 + P22*v2*v2)
        let delta := -val/deriv
        if delta < 1/10^10 then false
        else qcqp2Sing A11 A22 A12 b1 b2 r (la + delta) fuel

/-- `mju_QCQP2(res, Ain, bin, d, r)`. -/
def mju_QCQP2 (Ain bin d : List ℚ) (r : ℚ) : QRes :=
  let b1 := getl bin 0 * getl d 0
  let b2 := getl bin 1 * getl d 1
  let A11 := getl Ain 0 * getl d 0 * getl d 0
  let A22 := getl Ain 3 * getl d 1 * getl d 1
  let A12 := getl Ain 1 * getl d 0 * getl d 1
  match qcqp2Loop A11 A22 A12 b1 b2 r none 0 20 with
  | .singular => .out [0, 0] false
  | .finished none _ => .uninit
  | .finished (some (v1, v2)) la => .out [v1 * getl d 0, v2 * getl d 1] (decide (la ≠ 0))

/-- Outcome of the 3-D Newton loop, as in `QLoop2`. -/
inductive QLoop3 where
  | singular
  | finished (v : Option (ℚ × ℚ × ℚ)) (la : ℚ)
deriving Repr, DecidableEq

/-- The Newton loop of `mju_QCQP3` on the scaled data. -/
def qcqp3Loop (A11 A22 A33 A12 A13 A23 b1 b2 b3 r : ℚ) (v : Option (ℚ × ℚ × ℚ)) (la : ℚ) :
    Nat → QLoop3
  | 0 => .finished v la
  | fuel+1 =>
    let Q11 := (A22+la)*(A33+la) - A23*A23
    let Q22 := (A11+la)*(A33+la) - A13*A13
    let Q33 := (A11+la)*(A22+la) - A12*A12
    let Q12 := A13*A23 - A12*(A33+la)
    let Q13 := A12*A23 - A13*(A22+la)
    let Q23 := A12*A13 - A23*(A11+la)
    let det := (A11+la)*Q11 + A12*Q12 + A13*Q13
    if det < 1/10^10 then .singular
    else
      let detinv := 1/det
      let P11 := Q11*detinv
      let P22 := Q22*detinv
      let P33 := Q33*detinv
      let P12 := Q12*detinv
      let P13 := Q13*detinv
      let P23 := Q23*detinv
      let v1 := -P11*b1 - P12*b2 - P13*b3
      let v2 := -P12*b1 - P22*b2 - P23*b3
      let v3 := -P13*b1 - P23*b2 - P33*b3
      let val := v1*v1 + v2*v2 + v3*v3 - r*r
      if val < 1/10^10 then .finished (some (v1, v2, v3)) la
      else
        let deriv := -2*(P11*v1*v1 + P22*v2*v2 + P33*v3*v3)
          - 4*(P12*v1*v2 + P13*v1*v3 + P23*v2*v3)
        let delta := -val/deriv
        if delta < 1/10^10 then .finished (some (v1, v2, v3)) la
        else qcqp3Loop A11 A22 A33 A12 A13 A23 b1 b2 b3 r (some (v1, v2, v3)) (la + delta) fuel

/-- Whether the 3-D Newton iteration encounters `det(A+la) < 1e-10`. -/
def qcqp3Sing (A11 A22 A33 A12 A13 A23 b1 b2 b3 r : ℚ) (la : ℚ) : Nat → Bool
  | 0 => false
  | fuel+1 =>
    let Q11 := (A22+la)*(A33+la) - A23*A23
    let Q22 := (A11+la)*(A33+la) - A13*A13
    let Q33 := (A11+la)*(A22+la) - A12*A12
    let Q12 := A13*A23 - A12*(A33+la)
    let Q13 := A12*A23 - A13*(A22+la)
    let Q23 := A12*A13 - A23*(A11+la)
    let det := (A11+la)*Q11 + A12*Q12 + A13*Q13
    if det < 1/10^10 then true
    else
      let detinv := 1/det
      let P11 := Q11*detinv
      let P22 := Q22*detinv
      let P33 := Q33*detinv
      let P12 := Q12*detinv
      let P13 := Q13*detinv
      let P23 := Q23*detinv
      let v1 := -P11*b1 - P12*b2 - P13*b3
      let v2 := -P12*b1 - P22*b2 - P23*b3
      let v3 := -P13*b1 - P23*b2 - P33*b3
      let val := v1*v1 + v2*v2 + v3*v3 - r*r
      if val < 1/10^10 then false
      else
        let deriv := -2*(P11*v1*v1 + P22*v2*v2 + P33*v3*v3)
          - 4*(P12*v1*v2 + P13*v1*v3 + P23*v2*v3)
        let delta := -val/deriv
        if delta < 1/10^10 then false
        else qcqp3Sing A11 A22 A33 A12 A13 A23 b1 b2 b3 r (la + delta) fuel

/-- `mju_QCQP3(res, Ain, bin, d, r)`. -/
def mju_QCQP3 (Ain bin d : List ℚ) (r : ℚ) : QRes :=
  let b1 := getl bin 0 * getl d 0
  let b2 := getl bin 1 * getl d 1
  let b3 := getl bin 2 * getl d 2
  let A11 := getl Ain 0 * getl d 0 * getl d 0
  let A22 := getl Ain 4 * getl d 1 * getl d 1
  let A33 := getl Ain 8 * getl d 2 * getl d 2
  let A12 := getl Ain 1 * getl d 0 * getl d 1
  let A13 := getl Ain 2 * getl d 0 * getl d 2
  let A23 := getl Ain 5 * getl d 1 * getl d 2
  match qcqp3Loop A11 A22 A33 A12 A13 A23 b1 b2 b3 r none 0 20 with
  | .singular => .out [0, 0, 0] false
  | .finished none _ => .uninit
  | .finished (some (v1, v2, v3)) la =>
    .out [v1 * getl d 0, v2 * getl d 1, v3 * getl d 2] (decide (la ≠ 0))

/-- Outcome of the n-dimensional Newton loop. -/
inductive QLoopN where
  | singular
  | finished (v : Option (List ℚ)) (la : ℚ)
deriving Repr, DecidableEq

/-- Dot product of the `n` leading entries of two vectors
(`mju_dot(a, b, n)`). -/
def dotn (a b : List ℚ) (n : Nat) : ℚ := dotVec a b 0 n

/-- The Newton loop of `mju_QCQP` on the scaled data: each step adds
`la` to the diagonal, factors with `mju_cholFactor(.., 1e-10)`, checks
the returned rank against `n`, and solves with `mju_cholSolve`. -/
def qcqpNLoop (sq : ℚ → ℚ) (A b : List ℚ) (n : Nat) (r : ℚ) (v : Option (List ℚ)) (la : ℚ) :
    Nat → QLoopN
  | 0 => .finished v la
  | fuel+1 =>
    let Ala := (List.range n).foldl (fun m i => setl m (i*(n+1)) (getl m (i*(n+1)) + la)) A
    let ch := mju_cholFactor sq Ala n (1/10^10)
    if ch.rank < (n : Int) then .singular
    else
      let res := (List.range n).map (fun i => -(getl (mju_cholSolve ch.mat b n) i))
      let val := dotn res res n - r*r
      if val < 1/10^10 then .finished (some res) la
      else
        let deriv := -2 * dotn res (mju_cholSolve ch.mat res n) n
        let delta := -val/deriv
        if delta < 1/10^10 then .finished (some res) la
        else qcqpNLoop sq A b n r (some res) (la + delta) fuel

/-- Whether the n-dimensional Newton iteration encounters a Cholesky
rank below `n` (mindiag `1e-10`). -/
def qcqpNSing (sq : ℚ → ℚ) (A b : List ℚ) (n : Nat) (r : ℚ) (la : ℚ) : Nat → Bool
  | 0 => false
  | fuel+1 =>
    let Ala := (List.range n).foldl (fun m i => setl m (i*(n+1)) (getl m (i*(n+1)) + la)) A
    let ch := mju_cholFactor sq Ala n (1/10^10)
    if ch.rank < (n : Int) then true
    else
      let res := (List.range n).map (fun i => -(getl (mju_cholSolve ch.mat b n) i))
      let val := dotn res res n - r*r
      if val < 1/10^10 then false
      else
        let deriv := -2 * dotn res (mju_cholSolve ch.mat res n) n
        let delta := -val/deriv
        if delta < 1/10^10 then false
        else qcqpNSing sq A b n r (la + delta) fuel

/-- `mju_QCQP(res, Ain, bin, d, r, n)`: the general variant, fatal for
`n > 5`. -/
def mju_QCQP (sq : ℚ → ℚ) (Ain bin d : List ℚ) (r : ℚ) (n : Nat) : Except String QRes :=
  if n > 5 then .error "mju_QCQP supports n up to 5"
  else
    let b := (List.range n).map (fun i => getl bin i * getl d i)
    let A := (List.range (n*n)).map (fun t => getl Ain t * getl d (t / n) * getl d (t % n))
    match qcqpNLoop sq A b n r none 0 20 with
    | .singular => .ok (.out (List.replicate n 0) false)
    | .finished none _ => .ok .uninit
    | .finished (some res) la =>
      .ok (.out ((List.range n).map (fun i => getl res i * getl d i)) (decide (la ≠ 0)))

/-- The quantities of the first Newton iteration of `mju_QCQP2`
(`la = 0`, written `+0` where the loop has `+la`): the determinant test
value and the unconstrained minimizer `v` of the scaled problem. -/
def qcqp2Init (Ain bin d : List ℚ) : ℚ × ℚ × ℚ :=
  let b1 := getl bin 0 * getl d 0
  let b2 := getl bin 1 * getl d 1
  let A11 := getl Ain 0 * getl d 0 * getl d 0
  let A22 := getl Ain 3 * getl d 1 * getl d 1
  let A12 := getl Ain 1 * getl d 0 * getl d 1
  let det := (A11+(0:ℚ))*(A22+0) - A12*A12
  let detinv := 1/det
  let P11 := (A22+0)*detinv
  let P22 := (A11+0)*detinv
  let P12 := -A12*detinv
  let v1 := -P11*b1 - P12*b2
  let v2 := -P12*b1 - P22*b2
  (det, v1, v2)

/-- The first Newton iteration of `mju_QCQP3` (`la = 0`): determinant
and unconstrained minimizer of the scaled problem. -/
def qcqp3Init (Ain bin d : List ℚ) : ℚ × ℚ × ℚ × ℚ :=
  let b1 := getl bin 0 * getl d 0
  let b2 := getl bin 1 * getl d 1
  let b3 := getl bin 2 * getl d 2
  let A11 := getl Ain 0 * getl d 0 * getl d 0
  let A22 := getl Ain 4 * getl d 1 * getl d 1
  let A33 := getl Ain 8 * getl d 2 * getl d 2
  let A12 := getl Ain 1 * getl d 0 * getl d 1
  let A13 := getl Ain 2 * getl d 0 * getl d 2
  let A23 := getl Ain 5 * getl d 1 * getl d 2
  let Q11 := (A22+(0:ℚ))*(A33+0) - A23*A23
  let Q22 := (A11+0)*(A33+0) - A13*A13
  let Q33 := (A11+0)*(A22+0) - A12*A12
  let Q12 := A13*A23 - A12*(A33+0)
  let Q13 := A12*A23 - A13*(A22+0)
  let Q23 := A12*A13 - A23*(A11+0)
  let det := (A11+0)*Q11 + A12*Q12 + A13*Q13
  let detinv := 1/det
  let P11 := Q11*detinv
  let P22 := Q22*detinv
  let P33 := Q33*detinv
  let P12 := Q12*detinv
  let P13 := Q13*detinv
  let P23 := Q23*detinv
  let v1 := -P11*b1 - P12*b2 - P13*b3
  let v2 := -P12*b1 - P22*b2 - P23*b3
  let v3 := -P13*b1 - P23*b2 - P33*b3
  (det, v1, v2, v3)

set_option maxHeartbeats 1600000 in

/-- A square-root function that is exact on every value the
`mju_cholUpdate` round-trip below feeds to `mju_sqrt` (all perfect
rational squares). -/
def sqC4 (q : ℚ) : ℚ :=
  if q = 25 then 5 else if q = 9 then 3 else if q = 8281/81 then 91/9 else 0

/-- Row `r` fails the diagonal check of the `mju_cholFactorSparse`
pre-pass: after shrinking, the row is empty or its last stored entry's
column differs from `r`. -/
def badRow (colind rowadr rownnz : List Nat) (r : Nat) : Prop :=
  shrinkCount colind (getn rowadr r) r (getn rownnz r) = 0
  ∨ getn colind (getn rowadr r + shrinkCount colind (getn rowadr r) r (getn rownnz r) - 1) ≠ r

/-! ### Claim theorems -/

theorem cholFactorStep_bookkeeping (sq : ℚ → ℚ) (n : Nat) (mindiag : ℚ)
    (st : CholOut) (j : Nat) :
    (cholFactorStep sq n mindiag st j).rank
        + (cholFactorStep sq n mindiag st j).nclamp
      = st.rank + st.nclamp
    ∧ (cholFactorStep sq n mindiag st j).nclamp ≤ st.nclamp + 1 := by
  simp only [cholFactorStep]
  constructor
  · split <;> push_cast <;> ring
  · split <;> omega

theorem cholFactor_invariant (sq : ℚ → ℚ) (n : Nat) (mindiag : ℚ) :
    ∀ (js : List Nat) (st : CholOut),
      (js.foldl (cholFactorStep sq n mindiag) st).rank
          + (js.foldl (cholFactorStep sq n mindiag) st).nclamp
        = st.rank + st.nclamp
      ∧ (js.foldl (cholFactorStep sq n mindiag) st).nclamp
          ≤ st.nclamp + js.length := by
  intro js
  induction js with
  | nil => intro st; simp
  | cons j js ih =>
    intro st
    have h := ih (cholFactorStep sq n mindiag st j)
    have hs := cholFactorStep_bookkeeping sq n mindiag st j
    constructor
    · rw [List.foldl_cons, h.1, hs.1]
    · calc (List.foldl (cholFactorStep sq n mindiag)
              (cholFactorStep sq n mindiag st j) js).nclamp
          ≤ (cholFactorStep sq n mindiag st j).nclamp + js.length := h.2
        _ ≤ st.nclamp + (j :: js).length := by
            have := hs.2; simp only [List.length_cons]; omega

theorem cholUpdate_col_algebra (Lkk xk r : ℚ) (hL : Lkk ≠ 0) (hr : r ≠ 0)
    (hrr : r*r = Lkk*Lkk + xk*xk) :
    ∀ (col xr : List ℚ), col.length = xr.length →
      ((((col.zip xr).map (fun p => (p.1 + (xk/Lkk)*p.2)*(1/(r/Lkk)))).zip xr).map
          (fun p => (p.1 - (xk/r)*p.2)*(1/(Lkk/r))) = col)
      ∧ ((xr.zip col).map (fun p => (Lkk/r)*p.1 - (xk/r)*p.2)
          = (xr.zip ((col.zip xr).map (fun p => (p.1 + (xk/Lkk)*p.2)*(1/(r/Lkk))))).map
              (fun p => (r/Lkk)*p.1 - (xk/Lkk)*p.2)) := by
  intro col
  induction col with
  | nil => intro xr h; simp
  | cons a cs ih =>
    intro xr h
    match xr with
    | [] => simp at h
    | b :: xs =>
      simp only [List.length_cons, Nat.succ.injEq] at h
      obtain ⟨ih1, ih2⟩ := ih xs h
      refine ⟨?_, ?_⟩
      · simp only [List.zip_cons_cons, List.map_cons, ih1, List.cons.injEq, and_true]
        field_simp
      · simp only [List.zip_cons_cons, List.map_cons, ih2, List.cons.injEq, and_true]
        field_simp
        linear_combination (-(r * Lkk * b)) * hrr

theorem sqExactOn_tail {sq : ℚ → ℚ} {t : ℚ} {l : List ℚ}
    (h : sqExactOn sq (t :: l)) : sqExactOn sq l :=
  fun u hu => h u (List.mem_cons_of_mem _ hu)

theorem cholUpdate_downdate_freshX (sq : ℚ → ℚ) :
    ∀ (cols : List (ℚ × List ℚ)) (x : List ℚ),
      colsWF cols x.length → diagsPos cols →
      sqExactOn sq (mju_cholUpdate sq cols x true).trace →
      sqExactOn sq (mju_cholUpdate sq (mju_cholUpdate sq cols x true).cols x false).trace →
      (mju_cholUpdate sq cols x true).nclamp = 0 →
      (mju_cholUpdate sq (mju_cholUpdate sq cols x true).cols x false).nclamp = 0 →
      (mju_cholUpdate sq (mju_cholUpdate sq cols x true).cols x false).cols = cols := by
  intro cols
  induction cols with
  | nil => intro x _ _ _ _ _ _; simp [mju_cholUpdate]
  | cons hd rest ih =>
    obtain ⟨Lkk, col⟩ := hd
    intro x hwf hpos hsq1 hsq2 hnc1 hnc2
    match x with
    | [] => exact absurd hwf.1 (by simp)
    | xk :: xr =>
      obtain ⟨hlen, hwfr⟩ : (xk :: xr).length = col.length + 1 ∧ colsWF rest col.length := hwf
      have hlen' : col.length = xr.length := by
        simp only [List.length_cons] at hlen; omega
      obtain ⟨hLpos, hposr⟩ := hpos
      by_cases hxk : xk = 0
      · simp only [mju_cholUpdate, if_pos hxk] at hsq1 hsq2 hnc1 hnc2 ⊢
        exact congrArg _ (ih xr (by rw [← hlen']; exact hwfr) hposr hsq1 hsq2 hnc1 hnc2)
      · -- update step on column k
        simp only [mju_cholUpdate, if_neg hxk, if_true, if_false, Bool.false_eq_true]
          at hsq1 hnc1 hsq2 hnc2 ⊢
        have hL : Lkk ≠ 0 := ne_of_gt hLpos
        have hcl1 : ¬ (Lkk*Lkk + xk*xk < mjMINVAL) := by
          intro h
          simp only [if_pos h] at hnc1
          omega
        simp only [if_neg hcl1] at hnc1 hsq1 hsq2 hnc2 ⊢
        obtain ⟨hrr, hrpos⟩ := hsq1 (Lkk*Lkk + xk*xk) (List.mem_cons_self _ _)
        have hr : sq (Lkk*Lkk + xk*xk) ≠ 0 := ne_of_gt hrpos
        have e1 : sq (Lkk*Lkk + xk*xk) * sq (Lkk*Lkk + xk*xk) + -(xk*xk) = Lkk*Lkk := by
          rw [hrr]; ring
        simp only [e1] at hsq2 hnc2 ⊢
        have hcl2 : ¬ (Lkk*Lkk < mjMINVAL) := by
          intro h
          simp only [if_pos h] at hnc2
          omega
        simp only [if_neg hcl2] at hnc2 hsq2 ⊢
        obtain ⟨hrr2, hrpos2⟩ := hsq2 (Lkk*Lkk) (List.mem_cons_self _ _)
        have e2 : sq (Lkk*Lkk) = Lkk := (mul_self_inj hrpos2.le hLpos.le).mp hrr2
        simp only [e2] at hsq2 hnc2 ⊢
        obtain ⟨alg1, alg2⟩ :=
          cholUpdate_col_algebra Lkk xk (sq (Lkk*Lkk + xk*xk)) hL hr hrr col xr hlen'
        simp only [alg1, alg2] at hsq2 hnc2 ⊢
        refine congrArg (List.cons (Lkk, col)) (ih _ ?_ hposr
          (sqExactOn_tail hsq1) (sqExactOn_tail hsq2) (by omega) (by omega))
        simp only [List.length_map, List.length_zip]
        rw [← hlen']
        simpa using hwfr


/-- C1: for every `n ≥ 1` (indeed every `n`) and every `mindiag`,
`mju_cholFactor(mat, n, mindiag)` never signals an error (it is a total
function with no error channel) and returns `n` minus the number of
clamped pivots, a value between `0` and `n` that equals `n` exactly
when no pivot was clamped. -/
theorem claim_C1_cholFactor_rank (sq : ℚ → ℚ) (mat : List ℚ) (n : Nat) (mindiag : ℚ) :
    (mju_cholFactor sq mat n mindiag).rank
        = (n : Int) - (mju_cholFactor sq mat n mindiag).nclamp
    ∧ (mju_cholFactor sq mat n mindiag).nclamp ≤ n
    ∧ 0 ≤ (mju_cholFactor sq mat n mindiag).rank
    ∧ (mju_cholFactor sq mat n mindiag).rank ≤ (n : Int)
    ∧ ((mju_cholFactor sq mat n mindiag).rank = (n : Int)
        ↔ (mju_cholFactor sq mat n mindiag).nclamp = 0) := by
  have h := cholFactor_invariant sq n mindiag (List.range n) ⟨mat, (n:Int), 0⟩
  simp only [List.length_range] at h
  unfold mju_cholFactor
  obtain ⟨h1, h2⟩ := h
  refine ⟨by omega, by omega, by omega, by omega, by constructor <;> intro h3 <;> omega⟩

/-- C8: on `n = 2`, `A = [[2,0],[0,2]]`, `b = [4,0]`, `d = [1,1]`,
`r = 1`, `mju_QCQP2` returns flag 1 (constrained) with a result within
convergence tolerance of `[-1, 0]` (second component exactly 0), lying
on the unit-circle boundary to the same tolerance. -/
theorem claim_C8_qcqp2_concrete :
    (mju_QCQP2 [2, 0, 0, 2] [4, 0] [1, 1] 1).flag = true
    ∧ (mju_QCQP2 [2, 0, 0, 2] [4, 0] [1, 1] 1).resAt 1 = 0
    ∧ |(mju_QCQP2 [2, 0, 0, 2] [4, 0] [1, 1] 1).resAt 0 + 1| < 1/10^9
    ∧ |(mju_QCQP2 [2, 0, 0, 2] [4, 0] [1, 1] 1).resAt 0
        * (mju_QCQP2 [2, 0, 0, 2] [4, 0] [1, 1] 1).resAt 0
        + (mju_QCQP2 [2, 0, 0, 2] [4, 0] [1, 1] 1).resAt 1
        * (mju_QCQP2 [2, 0, 0, 2] [4, 0] [1, 1] 1).resAt 1 - 1| < 1/10^9 := by
  with_unfolding_all decide

theorem qcqp2Loop_of_sing (A11 A22 A12 b1 b2 r : ℚ) :
    ∀ (fuel : Nat) (v : Option (ℚ × ℚ)) (la : ℚ),
      qcqp2Sing A11 A22 A12 b1 b2 r la fuel = true →
      qcqp2Loop A11 A22 A12 b1 b2 r v la fuel = .singular := by
  intro fuel
  induction fuel with
  | zero => intro v la h; simp [qcqp2Sing] at h
  | succ fuel ih =>
    intro v la h
    simp only [qcqp2Sing] at h
    simp only [qcqp2Loop]
    split_ifs at h ⊢ with h1 h2 h3
    · rfl
    · exact ih _ _ h

theorem qcqp3Loop_of_sing (A11 A22 A33 A12 A13 A23 b1 b2 b3 r : ℚ) :
    ∀ (fuel : Nat) (v : Option (ℚ × ℚ × ℚ)) (la : ℚ),
      qcqp3Sing A11 A22 A33 A12 A13 A23 b1 b2 b3 r la fuel = true →
      qcqp3Loop A11 A22 A33 A12 A13 A23 b1 b2 b3 r v la fuel = .singular := by
  intro fuel
  induction fuel with
  | zero => intro v la h; simp [qcqp3Sing] at h
  | succ fuel ih =>
    intro v la h
    simp only [qcqp3Sing] at h
    simp only [qcqp3Loop]
    split_ifs at h ⊢ with h1 h2 h3
    · rfl
    · exact ih _ _ h

theorem qcqpNLoop_of_sing (sq : ℚ → ℚ) (A b : List ℚ) (n : Nat) (r : ℚ) :
    ∀ (fuel : Nat) (v : Option (List ℚ)) (la : ℚ),
      qcqpNSing sq A b n r la fuel = true →
      qcqpNLoop sq A b n r v la fuel = .singular := by
  intro fuel
  induction fuel with
  | zero => intro v la h; simp [qcqpNSing] at h
  | succ fuel ih =>
    intro v la h
    simp only [qcqpNSing] at h
    simp only [qcqpNLoop]
    split_ifs at h ⊢ with h1 h2 h3
    · rfl
    · exact ih _ _ h

set_option maxHeartbeats 1600000 in
/-- C3: in every QCQP variant, encountering loss of positive
definiteness at any Newton iteration (per the `1e-10` threshold:
`det(A+la*I) < 1e-10` in 2-D/3-D, Cholesky rank below `n` with mindiag
`1e-10` in the general variant) makes the routine return flag 0 with an
all-zero result vector instead of failing.  The `qcqp*Sing` predicates
trace the Newton iterates exactly and report whether the threshold test
ever fires. -/
theorem claim_C3_singular_zero (sq : ℚ → ℚ) (Ain bin d : List ℚ) (r : ℚ) (n : Nat) :
    (qcqp2Sing (getl Ain 0 * getl d 0 * getl d 0) (getl Ain 3 * getl d 1 * getl d 1)
        (getl Ain 1 * getl d 0 * getl d 1) (getl bin 0 * getl d 0) (getl bin 1 * getl d 1)
        r 0 20 = true →
      mju_QCQP2 Ain bin d r = .out [0, 0] false)
    ∧ (qcqp3Sing (getl Ain 0 * getl d 0 * getl d 0) (getl Ain 4 * getl d 1 * getl d 1)
        (getl Ain 8 * getl d 2 * getl d 2) (getl Ain 1 * getl d 0 * getl d 1)
        (getl Ain 2 * getl d 0 * getl d 2) (getl Ain 5 * getl d 1 * getl d 2)
        (getl bin 0 * getl d 0) (getl bin 1 * getl d 1) (getl bin 2 * getl d 2) r 0 20 = true →
      mju_QCQP3 Ain bin d r = .out [0, 0, 0] false)
    ∧ (n ≤ 5 →
      qcqpNSing sq ((List.range (n*n)).map (fun t => getl Ain t * getl d (t / n) * getl d (t % n)))
        ((List.range n).map (fun i => getl bin i * getl d i)) n r 0 20 = true →
      mju_QCQP sq Ain bin d r n = .ok (.out (List.replicate n 0) false)) := by
  refine ⟨?_, ?_, ?_⟩
  · intro h
    simp only [mju_QCQP2]
    simp only [qcqp2Loop_of_sing _ _ _ _ _ _ 20 none 0 h]
  · intro h
    simp only [mju_QCQP3]
    simp only [qcqp3Loop_of_sing _ _ _ _ _ _ _ _ _ _ 20 none 0 h]
  · intro h5 h
    simp only [mju_QCQP]
    rw [if_neg (by omega : ¬ n > 5)]
    simp only [qcqpNLoop_of_sing _ _ _ _ _ 20 none 0 h]

theorem claim_C3_singular_zero_witness :
    mju_QCQP2 [0, 0, 0, 0] [0, 0] [1, 1] 1 = .out [0, 0] false
    ∧ mju_QCQP3 [0, 0, 0, 0, 0, 0, 0, 0, 0] [0, 0, 0] [1, 1, 1] 1 = .out [0, 0, 0] false
    ∧ mju_QCQP (fun q => q) [0] [0] [1] 1 1 = .ok (.out (List.replicate 1 0) false) := by
  refine ⟨(claim_C3_singular_zero (fun q => q) [0, 0, 0, 0] [0, 0] [1, 1] 1 1).1
      (by with_unfolding_all decide),
    (claim_C3_singular_zero (fun q => q) [0, 0, 0, 0, 0, 0, 0, 0, 0] [0, 0, 0] [1, 1, 1] 1 1).2.1
      (by with_unfolding_all decide),
    (claim_C3_singular_zero (fun q => q) [0] [0] [1] 1 1).2.2 (by decide)
      (by with_unfolding_all decide)⟩

theorem qcqp2Loop_not_none (A11 A22 A12 b1 b2 r : ℚ) :
    ∀ (fuel : Nat) (v : Option (ℚ × ℚ)) (la : ℚ), (fuel ≠ 0 ∨ v.isSome = true) →
      ∀ la2, qcqp2Loop A11 A22 A12 b1 b2 r v la fuel ≠ .finished none la2 := by
  intro fuel
  induction fuel with
  | zero =>
    intro v la h la2
    rcases h with h | h
    · exact absurd rfl h
    · match v with
      | some p => simp [qcqp2Loop]
  | succ fuel ih =>
    intro v la h la2
    simp only [qcqp2Loop]
    split_ifs with h1 h2 h3
    · simp
    · simp
    · simp
    · exact ih _ _ (Or.inr (by simp)) la2

theorem qcqp3Loop_not_none (A11 A22 A33 A12 A13 A23 b1 b2 b3 r : ℚ) :
    ∀ (fuel : Nat) (v : Option (ℚ × ℚ × ℚ)) (la : ℚ), (fuel ≠ 0 ∨ v.isSome = true) →
      ∀ la2, qcqp3Loop A11 A22 A33 A12 A13 A23 b1 b2 b3 r v la fuel ≠ .finished none la2 := by
  intro fuel
  induction fuel with
  | zero =>
    intro v la h la2
    rcases h with h | h
    · exact absurd rfl h
    · match v with
      | some p => simp [qcqp3Loop]
  | succ fuel ih =>
    intro v la h la2
    simp only [qcqp3Loop]
    split_ifs with h1 h2 h3
    · simp
    · simp
    · simp
    · exact ih _ _ (Or.inr (by simp)) la2

set_option maxRecDepth 4000 in
/-- C10: in `mju_QCQP2` and `mju_QCQP3` the Newton loop body runs at
least once and every path reaching the final unscaling has `v1, v2[, v3]`
assigned in the last executed iteration (the `uninit` outcome is
unreachable); in particular, when the initial unconstrained minimizer is
already feasible (`val < 1e-10` at iteration 0 with `la = 0`), the
routine returns that minimizer rescaled by `d` with flag 0. -/
theorem claim_C10_loop_initializes (Ain bin d : List ℚ) (r : ℚ) :
    mju_QCQP2 Ain bin d r ≠ .uninit
    ∧ mju_QCQP3 Ain bin d r ≠ .uninit
    ∧ (¬ (qcqp2Init Ain bin d).1 < 1/10^10 →
       (qcqp2Init Ain bin d).2.1 * (qcqp2Init Ain bin d).2.1
           + (qcqp2Init Ain bin d).2.2 * (qcqp2Init Ain bin d).2.2 - r*r < 1/10^10 →
       mju_QCQP2 Ain bin d r
         = .out [(qcqp2Init Ain bin d).2.1 * getl d 0,
                 (qcqp2Init Ain bin d).2.2 * getl d 1] false)
    ∧ (¬ (qcqp3Init Ain bin d).1 < 1/10^10 →
       (qcqp3Init Ain bin d).2.1 * (qcqp3Init Ain bin d).2.1
           + (qcqp3Init Ain bin d).2.2.1 * (qcqp3Init Ain bin d).2.2.1
           + (qcqp3Init Ain bin d).2.2.2 * (qcqp3Init Ain bin d).2.2.2 - r*r < 1/10^10 →
       mju_QCQP3 Ain bin d r
         = .out [(qcqp3Init Ain bin d).2.1 * getl d 0,
                 (qcqp3Init Ain bin d).2.2.1 * getl d 1,
                 (qcqp3Init Ain bin d).2.2.2 * getl d 2] false) := by
  refine ⟨?_, ?_, ?_, ?_⟩
  · simp only [mju_QCQP2]
    split
    · simp
    · next heq =>
        exact absurd heq (qcqp2Loop_not_none _ _ _ _ _ _ 20 none 0 (Or.inl (by omega)) _)
    · simp
  · simp only [mju_QCQP3]
    split
    · simp
    · next heq =>
        exact absurd heq (qcqp3Loop_not_none _ _ _ _ _ _ _ _ _ _ 20 none 0 (Or.inl (by omega)) _)
    · simp
  · simp only [qcqp2Init]
    intro h1 h2
    simp only [mju_QCQP2, qcqp2Loop]
    rw [if_neg h1, if_pos h2]
    simp
  · simp only [qcqp3Init]
    intro h1 h2
    simp only [mju_QCQP3, qcqp3Loop]
    rw [if_neg h1, if_pos h2]
    simp

theorem claim_C10_loop_initializes_witness :
    mju_QCQP2 [1, 0, 0, 1] [0, 0] [1, 1] 1 ≠ .uninit
    ∧ mju_QCQP2 [1, 0, 0, 1] [0, 0] [1, 1] 1 = .out [0, 0] false
    ∧ mju_QCQP3 [1, 0, 0, 0, 1, 0, 0, 0, 1] [0, 0, 0] [1, 1, 1] 1 = .out [0, 0, 0] false := by
  refine ⟨(claim_C10_loop_initializes [1, 0, 0, 1] [0, 0] [1, 1] 1).1,
    ((claim_C10_loop_initializes [1, 0, 0, 1] [0, 0] [1, 1] 1).2.2.1
        (by with_unfolding_all decide) (by with_unfolding_all decide)).trans
      (by with_unfolding_all decide),
    ((claim_C10_loop_initializes [1, 0, 0, 0, 1, 0, 0, 0, 1] [0, 0, 0] [1, 1, 1] 1).2.2.2
        (by with_unfolding_all decide) (by with_unfolding_all decide)).trans
      (by with_unfolding_all decide)⟩

theorem eig3Step_e_shape (sq : ℚ → ℚ) (mat quat : List ℚ) :
    ∃ a b c, (eig3Step sq mat quat).2.1 = [a, b, c] := ⟨_, _, _, rfl⟩

theorem eig3Loop_shape (sq : ℚ → ℚ) (mat : List ℚ) :
    ∀ (fuel : Nat) (quat : List ℚ) (it : Nat),
      ∃ a b c q2 i2, eig3Loop sq mat quat fuel it = ([a, b, c], q2, i2) := by
  intro fuel
  induction fuel with
  | zero => intro quat it; exact ⟨0, 0, 0, quat, it, rfl⟩
  | succ fuel ih =>
    intro quat it
    obtain ⟨a, b, c, he⟩ := eig3Step_e_shape sq mat quat
    simp only [eig3Loop]
    split_ifs <;> first
      | exact ⟨a, b, c, _, _, by rw [he]⟩
      | apply ih

theorem eig3Sort_sorted (sq : ℚ → ℚ) (a b c : ℚ) (q : List ℚ) :
    getl (eig3SortPass sq (eig3SortPass sq (eig3SortPass sq ([a, b, c], q) 0) 1) 0).1 0
      ≥ getl (eig3SortPass sq (eig3SortPass sq (eig3SortPass sq ([a, b, c], q) 0) 1) 0).1 1
    ∧ getl (eig3SortPass sq (eig3SortPass sq (eig3SortPass sq ([a, b, c], q) 0) 1) 0).1 1
      ≥ getl (eig3SortPass sq (eig3SortPass sq (eig3SortPass sq ([a, b, c], q) 0) 1) 0).1 2 := by
  simp only [eig3SortPass, getl, setl, List.getD_cons_zero, List.getD_cons_succ,
    List.set_cons_zero, List.set_cons_succ]
  split_ifs <;>
    simp_all [List.getD_cons_zero, List.getD_cons_succ, List.set_cons_zero,
      List.set_cons_succ] <;>
    (try constructor) <;> linarith

/-- C5: for every input matrix, `mju_eig3` returns its eigenvalue triple
sorted in non-increasing order (`eigval[0] >= eigval[1] >= eigval[2]`),
the sorting being performed by the fixed 3-comparison bubble pass over
lead indices 0, 1, 0 after the Jacobi loop terminates. -/
theorem claim_C5_eig3_sorted (sq : ℚ → ℚ) (mat : List ℚ) :
    getl (mju_eig3 sq mat).1 0 ≥ getl (mju_eig3 sq mat).1 1
    ∧ getl (mju_eig3 sq mat).1 1 ≥ getl (mju_eig3 sq mat).1 2 := by
  obtain ⟨a, b, c, q2, i2, he⟩ := eig3Loop_shape sq mat 500 [1, 0, 0, 0] 0
  simp only [mju_eig3, he]
  exact eig3Sort_sorted sq a b c q2

theorem cholUpdate_cex_up_eval :
    mju_cholUpdate sqC4 [(3, [3]), (109/9, [])] [4, 4] true
      = ⟨[(5, [5]), (109/9, [])], [4, 0], 0, [25]⟩ := by
  norm_num [mju_cholUpdate, sqC4, mjMINVAL]

theorem cholUpdate_cex_down_eval :
    mju_cholUpdate sqC4 [((5:ℚ), [(5:ℚ)]), (109/9, [])] [4, 0] false
      = ⟨[(3, [25/3]), (91/9, [])], [4, -20/3], 0, [9, 8281/81]⟩ := by
  norm_num [mju_cholUpdate, sqC4, mjMINVAL]

theorem cholUpdate_cex_down_fresh_eval :
    mju_cholUpdate sqC4 [((5:ℚ), [(5:ℚ)]), (109/9, [])] [4, 4] false
      = ⟨[(3, [3]), (109/9, [])], [4, 0], 0, [9]⟩ := by
  norm_num [mju_cholUpdate, sqC4, mjMINVAL]

theorem sqC4_exact_up :
    sqExactOn sqC4 (mju_cholUpdate sqC4 [(3, [3]), (109/9, [])] [4, 4] true).trace := by
  rw [cholUpdate_cex_up_eval]
  norm_num [sqExactOn, sqC4]

theorem sqC4_exact_down_mutated :
    sqExactOn sqC4 (mju_cholUpdate sqC4
      (mju_cholUpdate sqC4 [(3, [3]), (109/9, [])] [4, 4] true).cols
      (mju_cholUpdate sqC4 [(3, [3]), (109/9, [])] [4, 4] true).x false).trace := by
  rw [cholUpdate_cex_up_eval]
  show sqExactOn sqC4 (mju_cholUpdate sqC4 [((5:ℚ), [(5:ℚ)]), (109/9, [])] [4, 0] false).trace
  rw [cholUpdate_cex_down_eval]
  norm_num [sqExactOn, sqC4]

theorem sqC4_exact_down_fresh :
    sqExactOn sqC4 (mju_cholUpdate sqC4
      (mju_cholUpdate sqC4 [(3, [3]), (109/9, [])] [4, 4] true).cols
      [4, 4] false).trace := by
  rw [cholUpdate_cex_up_eval]
  show sqExactOn sqC4 (mju_cholUpdate sqC4 [((5:ℚ), [(5:ℚ)]), (109/9, [])] [4, 4] false).trace
  rw [cholUpdate_cex_down_fresh_eval]
  norm_num [sqExactOn, sqC4]

theorem cholUpdate_cex_nclamp_up :
    (mju_cholUpdate sqC4 [(3, [3]), (109/9, [])] [4, 4] true).nclamp = 0 := by
  rw [cholUpdate_cex_up_eval]

theorem cholUpdate_cex_nclamp_down :
    (mju_cholUpdate sqC4
      (mju_cholUpdate sqC4 [(3, [3]), (109/9, [])] [4, 4] true).cols
      (mju_cholUpdate sqC4 [(3, [3]), (109/9, [])] [4, 4] true).x false).nclamp = 0 := by
  rw [cholUpdate_cex_up_eval]
  show (mju_cholUpdate sqC4 [((5:ℚ), [(5:ℚ)]), (109/9, [])] [4, 0] false).nclamp = 0
  rw [cholUpdate_cex_down_eval]

theorem cholUpdate_cex_nclamp_down_fresh :
    (mju_cholUpdate sqC4
      (mju_cholUpdate sqC4 [(3, [3]), (109/9, [])] [4, 4] true).cols
      [4, 4] false).nclamp = 0 := by
  rw [cholUpdate_cex_up_eval]
  show (mju_cholUpdate sqC4 [((5:ℚ), [(5:ℚ)]), (109/9, [])] [4, 4] false).nclamp = 0
  rw [cholUpdate_cex_down_fresh_eval]

theorem cholUpdate_cex_cols_ne :
    (mju_cholUpdate sqC4
      (mju_cholUpdate sqC4 [(3, [3]), (109/9, [])] [4, 4] true).cols
      (mju_cholUpdate sqC4 [(3, [3]), (109/9, [])] [4, 4] true).x false).cols
    ≠ [((3:ℚ), [(3:ℚ)]), (109/9, [])] := by
  rw [cholUpdate_cex_up_eval]
  show (mju_cholUpdate sqC4 [((5:ℚ), [(5:ℚ)]), (109/9, [])] [4, 0] false).cols
    ≠ [((3:ℚ), [(3:ℚ)]), (109/9, [])]
  rw [cholUpdate_cex_down_eval]
  norm_num

theorem cholUpdate_cex_wf :
    colsWF [((3:ℚ), [(3:ℚ)]), (109/9, [])] ([(4:ℚ), 4] : List ℚ).length := by
  simp [colsWF]

theorem cholUpdate_cex_pos : diagsPos [((3:ℚ), [(3:ℚ)]), (109/9, [])] := by
  norm_num [diagsPos]

/-- Counterexample to C4 as stated: with the same buffers passed to both
calls (the update mutates `x` in place, so the downdate sees the mutated
vector), the round trip does not restore the factor, even though no
diagonal clamping occurs in either call (both calls return `n`), every
diagonal is positive, and every square root taken is exact.  Input:
`L = [[3,0],[3,109/9]]` (columns `(3,[3])` and `(109/9,[])`),
`x = [4,4]`. -/
theorem claim_C4_counterexample :
    colsWF [((3:ℚ), [(3:ℚ)]), (109/9, [])] ([(4:ℚ), 4] : List ℚ).length
    ∧ diagsPos [((3:ℚ), [(3:ℚ)]), (109/9, [])]
    ∧ sqExactOn sqC4 (mju_cholUpdate sqC4 [(3, [3]), (109/9, [])] [4, 4] true).trace
    ∧ sqExactOn sqC4 (mju_cholUpdate sqC4
        (mju_cholUpdate sqC4 [(3, [3]), (109/9, [])] [4, 4] true).cols
        (mju_cholUpdate sqC4 [(3, [3]), (109/9, [])] [4, 4] true).x false).trace
    ∧ (mju_cholUpdate sqC4 [(3, [3]), (109/9, [])] [4, 4] true).nclamp = 0
    ∧ (mju_cholUpdate sqC4
        (mju_cholUpdate sqC4 [(3, [3]), (109/9, [])] [4, 4] true).cols
        (mju_cholUpdate sqC4 [(3, [3]), (109/9, [])] [4, 4] true).x false).nclamp = 0
    ∧ (mju_cholUpdate sqC4
        (mju_cholUpdate sqC4 [(3, [3]), (109/9, [])] [4, 4] true).cols
        (mju_cholUpdate sqC4 [(3, [3]), (109/9, [])] [4, 4] true).x false).cols
      ≠ [((3:ℚ), [(3:ℚ)]), (109/9, [])] :=
  ⟨cholUpdate_cex_wf, cholUpdate_cex_pos, sqC4_exact_up, sqC4_exact_down_mutated,
    cholUpdate_cex_nclamp_up, cholUpdate_cex_nclamp_down, cholUpdate_cex_cols_ne⟩

theorem claim_C4_roundTrip_witness :
    (mju_cholUpdate sqC4 (mju_cholUpdate sqC4 [(3, [3]), (109/9, [])] [4, 4] true).cols
        [4, 4] false).cols = [((3:ℚ), [(3:ℚ)]), (109/9, [])] :=
  cholUpdate_downdate_freshX sqC4 [(3, [3]), (109/9, [])] [4, 4]
    cholUpdate_cex_wf cholUpdate_cex_pos sqC4_exact_up sqC4_exact_down_fresh
    cholUpdate_cex_nclamp_up cholUpdate_cex_nclamp_down_fresh

theorem shrinkCount_le (colind : List Nat) (adr r : Nat) :
    ∀ k, shrinkCount colind adr r k ≤ k := by
  intro k
  induction k with
  | zero => simp [shrinkCount]
  | succ k ih =>
    simp only [shrinkCount]
    split
    · exact le_trans ih (Nat.le_succ k)
    · exact le_refl _

theorem getn_set_self {l : List Nat} {i v : Nat} (h : i < l.length) :
    getn (l.set i v) i = v := by
  simp [getn, List.getD_eq_getElem?_getD, List.getElem?_set_eq_of_lt _ h]

theorem getn_set_ne {l : List Nat} {i j v : Nat} (h : i ≠ j) :
    getn (l.set i v) j = getn l j := by
  simp [getn, List.getD_eq_getElem?_getD, List.getElem?_set_ne h]

theorem cholPrepassGo_ok (colind rowadr : List Nat) :
    ∀ (rs : List Nat) (rn rn' : List Nat), rs.Nodup →
      cholPrepassGo colind rowadr rs rn = .ok rn' →
      (∀ r ∈ rs,
        getn rn' r = shrinkCount colind (getn rowadr r) r (getn rn r)
        ∧ 0 < getn rn' r
        ∧ getn colind (getn rowadr r + getn rn' r - 1) = r)
      ∧ (∀ r, r ∉ rs → getn rn' r = getn rn r) := by
  intro rs
  induction rs with
  | nil =>
    intro rn rn' _ h
    simp only [cholPrepassGo] at h
    cases h
    exact ⟨by simp, fun r _ => rfl⟩
  | cons r0 rs ih =>
    intro rn rn' hnd h
    simp only [cholPrepassGo] at h
    by_cases h0 : shrinkCount colind (getn rowadr r0) r0 (getn rn r0) = 0
    · rw [if_pos h0] at h; exact absurd h (by simp)
    · rw [if_neg h0] at h
      by_cases h1 : getn colind
          (getn rowadr r0 + shrinkCount colind (getn rowadr r0) r0 (getn rn r0) - 1) ≠ r0
      · rw [if_pos h1] at h; exact absurd h (by simp)
      · rw [if_neg h1] at h
        push_neg at h1
        have hr0rs : r0 ∉ rs := (List.nodup_cons.mp hnd).1
        obtain ⟨ha, hb⟩ := ih _ rn' (List.nodup_cons.mp hnd).2 h
        constructor
        · intro r hr
          rcases List.mem_cons.mp hr with rfl | hr'
          · have hlen : r < rn.length := by
              by_contra hge
              have hz : getn rn r = 0 := by
                simp [getn, List.getD_eq_getElem?_getD,
                  List.getElem?_eq_none (le_of_not_lt hge)]
              rw [hz] at h0
              simp [shrinkCount] at h0
            have e := hb r hr0rs
            rw [e, getn_set_self hlen]
            exact ⟨rfl, Nat.pos_of_ne_zero h0, h1⟩
          · obtain ⟨e1, e2, e3⟩ := ha r hr'
            have hne : r0 ≠ r := fun he => hr0rs (he ▸ hr')
            rw [getn_set_ne hne] at e1
            exact ⟨e1, e2, e3⟩
        · intro r hr
          have hnotrs : r ∉ rs := fun hh => hr (List.mem_cons_of_mem _ hh)
          have hner0 : r0 ≠ r := fun he => hr (he ▸ List.mem_cons_self r0 rs)
          rw [hb r hnotrs, getn_set_ne hner0]

theorem cholPrepassGo_error_iff (colind rowadr : List Nat) :
    ∀ (rs : List Nat) (rn : List Nat), rs.Nodup →
      (cholPrepassGo colind rowadr rs rn = .error cholDiagErr
        ↔ ∃ r ∈ rs,
            shrinkCount colind (getn rowadr r) r (getn rn r) = 0
            ∨ getn colind
                (getn rowadr r + shrinkCount colind (getn rowadr r) r (getn rn r) - 1) ≠ r) := by
  intro rs
  induction rs with
  | nil => intro rn _; simp [cholPrepassGo]
  | cons r0 rs ih =>
    intro rn hnd
    simp only [cholPrepassGo]
    by_cases h0 : shrinkCount colind (getn rowadr r0) r0 (getn rn r0) = 0
    · rw [if_pos h0]
      exact ⟨fun _ => ⟨r0, List.mem_cons_self _ _, Or.inl h0⟩, fun _ => rfl⟩
    · rw [if_neg h0]
      by_cases h1 : getn colind
          (getn rowadr r0 + shrinkCount colind (getn rowadr r0) r0 (getn rn r0) - 1) ≠ r0
      · rw [if_pos h1]
        exact ⟨fun _ => ⟨r0, List.mem_cons_self _ _, Or.inr h1⟩, fun _ => rfl⟩
      · rw [if_neg h1]
        push_neg at h1
        have hr0rs : r0 ∉ rs := (List.nodup_cons.mp hnd).1
        rw [ih _ (List.nodup_cons.mp hnd).2]
        constructor
        · rintro ⟨r, hr, hbad⟩
          have hne : r0 ≠ r := fun he => hr0rs (he ▸ hr)
          rw [getn_set_ne hne] at hbad
          exact ⟨r, List.mem_cons_of_mem _ hr, hbad⟩
        · rintro ⟨r, hr, hbad⟩
          rcases List.mem_cons.mp hr with rfl | hr'
          · rcases hbad with hb | hb
            · exact absurd hb h0
            · exact absurd h1 hb
          · have hne : r0 ≠ r := fun he => hr0rs (he ▸ hr')
            exact ⟨r, hr', by rw [getn_set_ne hne]; exact hbad⟩

set_option maxHeartbeats 800000 in
/-- C7: before any numeric work, `mju_cholFactorSparse` shrinks every
row's stored count so the row's last entry is exactly its diagonal
(shrink-only: the new count never exceeds the old), reports the fatal
diagonal error exactly when some row lacks an in-range diagonal after
shrinking, and on that fatal path the result is independent of the
values buffer `mat` (no value of `mat` is read or written before the
check completes). -/
theorem claim_C7_prepass_diagonal (sq : ℚ → ℚ) (mindiag : ℚ)
    (rownnz rowadr colind : List Nat) (n pstack : Nat) :
    (∀ rn', cholPrepass colind rowadr rownnz n = .ok rn' →
      ∀ r, r < n →
        getn rn' r ≤ getn rownnz r ∧ 0 < getn rn' r
        ∧ getn colind (getn rowadr r + getn rn' r - 1) = r)
    ∧ (cholPrepass colind rowadr rownnz n = .error cholDiagErr
        ↔ ∃ r, r < n ∧ badRow colind rowadr rownnz r)
    ∧ (∀ e, cholPrepass colind rowadr rownnz n = .error e →
        ∀ mat mat' : List ℚ,
          (mju_cholFactorSparse sq mat n mindiag rownnz rowadr colind pstack).1 = .error e
          ∧ (mju_cholFactorSparse sq mat n mindiag rownnz rowadr colind pstack).1
            = (mju_cholFactorSparse sq mat' n mindiag rownnz rowadr colind pstack).1) := by
  refine ⟨?_, ?_, ?_⟩
  · intro rn' hok r hr
    obtain ⟨ha, _⟩ :=
      cholPrepassGo_ok colind rowadr (List.range n) rownnz rn' (List.nodup_range n) hok
    obtain ⟨e1, e2, e3⟩ := ha r (List.mem_range.mpr hr)
    exact ⟨by rw [e1]; exact shrinkCount_le _ _ _ _, e2, e3⟩
  · rw [cholPrepass, cholPrepassGo_error_iff colind rowadr (List.range n) rownnz
      (List.nodup_range n)]
    simp [badRow, List.mem_range]
  · intro e he mat mat'
    constructor
    · simp [mju_cholFactorSparse, he]
    · simp [mju_cholFactorSparse, he]

theorem claim_C7_prepass_diagonal_witness :
    (getn [1, 2] 0 ≤ getn [1, 2] 0 ∧ 0 < getn [1, 2] 0
      ∧ getn [0, 0, 1] (getn [0, 1] 0 + getn [1, 2] 0 - 1) = 0)
    ∧ (mju_cholFactorSparse (fun q => q) [5] 1 0 [1] [0] [1] 0).1 = .error cholDiagErr
    ∧ ∃ r, r < 1 ∧ badRow [1] [0] [1] r := by
  refine ⟨?_, ?_, ?_⟩
  · exact (claim_C7_prepass_diagonal (fun q => q) 0 [1, 2] [0, 1] [0, 0, 1] 2 0).1 [1, 2]
      (by with_unfolding_all decide) 0 (by decide)
  · exact ((claim_C7_prepass_diagonal (fun q => q) 0 [1] [0] [1] 1 0).2.2 cholDiagErr
      (by with_unfolding_all decide) [5] [5]).1
  · exact (claim_C7_prepass_diagonal (fun q => q) 0 [1] [0] [1] 1 0).2.1.mp
      (by with_unfolding_all decide)

/-- Counterexample to C9 as stated: on the fatal-error exit of
`mju_cholFactorSparse` (missing diagonal), the arena pointer is left at
`mark + 2n` - `mjFREESTACK` does not run before `mju_error` aborts, so
the scratch is NOT released and the mark (here 0) is not restored before
the failure propagates. -/
theorem claim_C9_counterexample :
    (mju_cholFactorSparse (fun q => q) [5] 1 0 [1] [0] [1] 0).1 = .error cholDiagErr
    ∧ (mju_cholFactorSparse (fun q => q) [5] 1 0 [1] [0] [1] 0).2 = 2
    ∧ (2 : Nat) ≠ 0 :=
  ⟨by with_unfolding_all decide, by with_unfolding_all decide, by decide⟩

/-- C9 (amended): `mju_cholFactorSparse` and `mju_cholUpdateSparse`
release their scratch (restore the arena pointer to the mark) exactly on
the normal return path; on the fatal-error exit the pointer remains
advanced by the two `mj_stackAlloc(d, n)` acquisitions. -/
theorem claim_C9_scratch_release (sq : ℚ → ℚ) (mat x : List ℚ) (n : Nat) (mindiag : ℚ)
    (flgPlus : Bool) (rownnz rowadr colind xind : List Nat) (xnnz pstack fuel : Nat) :
    (∀ out, (mju_cholFactorSparse sq mat n mindiag rownnz rowadr colind pstack).1 = .ok out →
      (mju_cholFactorSparse sq mat n mindiag rownnz rowadr colind pstack).2 = pstack)
    ∧ (∀ e, (mju_cholFactorSparse sq mat n mindiag rownnz rowadr colind pstack).1 = .error e →
      (mju_cholFactorSparse sq mat n mindiag rownnz rowadr colind pstack).2 = pstack + n + n)
    ∧ (∀ out p',
      mju_cholUpdateSparse sq mat x n flgPlus rownnz rowadr colind xnnz xind pstack fuel
        = some (.ok out, p') → p' = pstack)
    ∧ (∀ e p',
      mju_cholUpdateSparse sq mat x n flgPlus rownnz rowadr colind xnnz xind pstack fuel
        = some (.error e, p') → p' = pstack + n + n) := by
  refine ⟨?_, ?_, ?_, ?_⟩
  · intro out h
    simp only [mju_cholFactorSparse] at h ⊢
    cases hp : cholPrepass colind rowadr rownnz n with
    | error e => rw [hp] at h; simp at h
    | ok rn => rfl
  · intro e h
    simp only [mju_cholFactorSparse] at h ⊢
    cases hp : cholPrepass colind rowadr rownnz n with
    | error e2 => rfl
    | ok rn => rw [hp] at h; simp at h
  · intro out p' h
    simp only [mju_cholUpdateSparse] at h
    cases hl : cholUpdLoop sq flgPlus rownnz rowadr fuel mat colind x xind
        ((xnnz : Int) - 1) (n : Int) [] with
    | none => rw [hl] at h; simp at h
    | some r =>
      rw [hl] at h
      cases r with
      | error e => simp at h
      | ok o => simp at h; omega
  · intro e p' h
    simp only [mju_cholUpdateSparse] at h
    cases hl : cholUpdLoop sq flgPlus rownnz rowadr fuel mat colind x xind
        ((xnnz : Int) - 1) (n : Int) [] with
    | none => rw [hl] at h; simp at h
    | some r =>
      rw [hl] at h
      cases r with
      | error e2 => simp at h; omega
      | ok o => simp at h

theorem claim_C9_scratch_release_witness :
    (mju_cholFactorSparse (fun q => q) [2, 0, 1] 2 0 [1, 2] [0, 1] [0, 0, 1] 7).2 = 7
    ∧ (mju_cholFactorSparse (fun q => q) [5] 1 0 [1] [0] [1] 5).2 = 5 + 1 + 1
    ∧ (7 : Nat) = 7
    ∧ (7 : Nat) = 3 + 2 + 2 := by
  refine ⟨?_, ?_, ?_, ?_⟩
  · exact (claim_C9_scratch_release (fun q => q) [2, 0, 1] [] 2 0 true [1, 2] [0, 1]
      [0, 0, 1] [] 0 7 0).1 ([2, 0, 1], [0, 0, 1], [1, 2], 2) (by with_unfolding_all decide)
  · exact (claim_C9_scratch_release (fun q => q) [5] [] 1 0 true [1] [0] [1] [] 0 5 0).2.1
      cholDiagErr (by with_unfolding_all decide)
  · exact (claim_C9_scratch_release (fun _ => 1) [1, 2, 1] [5] 2 0 true [1, 2] [0, 1]
      [0, 0, 1] [1] 1 7 5).2.2.1 ⟨[1, 2, 1], [0, 0, 1], [-10], [0], [1, 2], 2, [(2, 1), (1, 0)]⟩
      7 (by with_unfolding_all decide)
  · exact (claim_C9_scratch_release (fun _ => 1) [1, 1] [3, 4] 2 0 true [1, 1] [0, 1]
      [0, 1] [0, 1] 2 3 5).2.2.2 "Varying sparsity pattern in mju_cholUpdateSparse"
      7 (by with_unfolding_all decide)

theorem cholUpdLoop_events (sq : ℚ → ℚ) (flgPlus : Bool) (rownnz rowadr : List Nat) :
    ∀ (fuel : Nat) (mat : List ℚ) (colind : List Nat) (x : List ℚ) (xind : List Nat)
      (i rank : Int) (events : List (Int × Int)) (out : SpUpdOut),
      (∀ ev ∈ events, ev.2 = ev.1 - 1) →
      cholUpdLoop sq flgPlus rownnz rowadr fuel mat colind x xind i rank events
        = some (.ok out) →
      (∀ ev ∈ out.events, ev.2 = ev.1 - 1) ∧ out.rownnz = rownnz := by
  intro fuel
  induction fuel with
  | zero =>
    intro mat colind x xind i rank events out hinv h
    simp [cholUpdLoop] at h
  | succ fuel ih =>
    intro mat colind x xind i rank events out hinv h
    simp only [cholUpdLoop] at h
    split_ifs at h with h1 h2
    · simp only [Option.some.injEq, Except.ok.injEq] at h
      exact ⟨by rw [← h]; exact hinv, by rw [← h]⟩
    · exact absurd h (by simp)
    · refine ih _ _ _ _ _ _ _ _ ?_ h
      intro ev hev
      rcases List.mem_append.mp hev with hev | hev
      · exact hinv ev hev
      · simp only [List.mem_singleton] at hev
        subst hev
        push_neg at h2
        simpa using h2

/-- C6: in `mju_cholUpdateSparse`, the sparsity pattern of `mat` must
not change: for every row touched by the nonzero pattern of `x`, the
`mju_combineSparse` row-combine either returns exactly the row's stored
nonzero count (`new_nnz == nnz-1`, with the diagonal written
separately) or the call aborts with the fatal varying-sparsity error;
on a successful call the `rownnz` array is returned unchanged. -/
theorem claim_C6_pattern_preserved (sq : ℚ → ℚ) (mat x : List ℚ) (n : Nat) (flgPlus : Bool)
    (rownnz rowadr colind xind : List Nat) (xnnz pstack fuel : Nat) :
    ∀ out p',
      mju_cholUpdateSparse sq mat x n flgPlus rownnz rowadr colind xnnz xind pstack fuel
        = some (.ok out, p') →
      (∀ ev ∈ out.events, ev.2 = ev.1 - 1) ∧ out.rownnz = rownnz := by
  intro out p' h
  simp only [mju_cholUpdateSparse] at h
  cases hl : cholUpdLoop sq flgPlus rownnz rowadr fuel mat colind x xind
      ((xnnz : Int) - 1) (n : Int) [] with
  | none => rw [hl] at h; simp at h
  | some r =>
    rw [hl] at h
    cases r with
    | error e => simp at h
    | ok o =>
      simp only [Option.some.injEq, Prod.mk.injEq, Except.ok.injEq] at h
      rw [← h.1]
      exact cholUpdLoop_events sq flgPlus rownnz rowadr fuel mat colind x xind
        ((xnnz : Int) - 1) (n : Int) [] o (by simp) hl

theorem claim_C6_pattern_preserved_witness :
    (∀ ev ∈ ([((2:Int), (1:Int)), (1, 0)] : List (Int × Int)), ev.2 = ev.1 - 1)
    ∧ ([1, 2] : List Nat) = [1, 2] := by
  have h := claim_C6_pattern_preserved (fun _ => 1) [1, 2, 1] [5] 2 true [1, 2] [0, 1]
    [0, 0, 1] [1] 1 7 5
    ⟨[1, 2, 1], [0, 0, 1], [-10], [0], [1, 2], 2, [(2, 1), (1, 0)]⟩ 7
    (by with_unfolding_all decide)
  exact ⟨h.1, h.2⟩

theorem colsWin_zero (colind : List Nat) (start : Nat) :
    colsWin colind start 0 = [] := rfl

theorem colsWin_succ (colind : List Nat) (start len : Nat) :
    colsWin colind start (len+1) = getn colind start :: colsWin colind (start+1) len := by
  simp only [colsWin, List.range_succ_eq_map, List.map_cons, List.map_map, Nat.add_zero]
  refine congrArg _ (List.map_congr_left ?_)
  intro t ht
  show getn colind (start + (t+1)) = getn colind (start + 1 + t)
  congr 1
  omega

/-- C2 (amended): the `mju_factorLUSparse` row-merge completes without
a fatal report if and only if row `i`'s remaining nonzero column set is
a subset (sorted sublist) of row `j`'s - NOT iff the two sets align
exactly: a column present in row `j` and absent in row `i` is skipped
silently (`jcnt++`), and only a column of row `i` missing from row `j`
raises the fatal "fill-in required" error.  Hypotheses: both windows
are sorted strictly increasing and every column of the `j` window lies
left of the column stored at the `i` window's bound (the diagonal
sentinel of row `i`). -/
theorem claim_C2_merge_subset (colind : List Nat) (LUji : ℚ) :
    ∀ (jlen ilen icnt jcnt : Nat) (LU : List ℚ),
      (colsWin colind icnt ilen).Pairwise (· < ·) →
      (colsWin colind jcnt jlen).Pairwise (· < ·) →
      (∀ c ∈ colsWin colind jcnt jlen, c < getn colind (icnt + ilen)) →
      ((∃ LU', lu_mergeLoop colind LUji ((icnt : Int) + (ilen : Int))
          ((jcnt : Int) + (jlen : Int)) icnt jcnt jlen LU = .ok LU')
        ↔ List.Sublist (colsWin colind icnt ilen) (colsWin colind jcnt jlen)) := by
  intro jlen
  induction jlen with
  | zero =>
    intro ilen icnt jcnt LU hi hj hs
    constructor
    · rintro ⟨LU', h⟩
      by_cases hz : ilen = 0
      · subst hz
        simp [colsWin_zero]
      · exfalso
        simp only [lu_mergeLoop] at h
        rw [if_pos (by left; omega)] at h
        exact absurd h (by simp)
    · intro hsub
      have hz : colsWin colind icnt ilen = [] := List.sublist_nil.mp hsub
      have : ilen = 0 := by
        by_contra hne
        rcases Nat.exists_eq_succ_of_ne_zero hne with ⟨k, hk⟩
        rw [hk, colsWin_succ] at hz
        exact List.cons_ne_nil _ _ hz
      subst this
      exact ⟨LU, by simp [lu_mergeLoop]⟩
  | succ jl ih =>
    intro ilen icnt jcnt LU hi hj hs
    rw [colsWin_succ] at hj hs ⊢
    by_cases hmatch : getn colind icnt = getn colind jcnt
    · cases ilen with
      | zero =>
        exfalso
        have h2 := hs (getn colind jcnt) (List.mem_cons_self _ _)
        rw [Nat.add_zero] at h2
        omega
      | succ il =>
        rw [colsWin_succ] at hi ⊢
        simp only [lu_mergeLoop, if_pos hmatch]
        have e1 : (icnt : Int) + ((il+1 : Nat) : Int) = ((icnt+1 : Nat) : Int) + (il : Int) := by
          push_cast; ring
        have e2 : (jcnt : Int) + ((jl+1 : Nat) : Int) = ((jcnt+1 : Nat) : Int) + (jl : Int) := by
          push_cast; ring
        rw [e1, e2, ih il (icnt+1) (jcnt+1) _ (List.pairwise_cons.mp hi).2
          (List.pairwise_cons.mp hj).2
          (fun c hc => by
            have e3 : icnt + 1 + il = icnt + (il + 1) := by omega
            rw [e3]
            exact hs c (List.mem_cons_of_mem _ hc))]
        rw [hmatch]
        exact List.cons_sublist_cons.symm
    · by_cases hgt : getn colind icnt > getn colind jcnt
      · simp only [lu_mergeLoop, if_neg hmatch, if_pos hgt]
        have e2 : (jcnt : Int) + ((jl+1 : Nat) : Int) = ((jcnt+1 : Nat) : Int) + (jl : Int) := by
          push_cast; ring
        rw [e2, ih ilen icnt (jcnt+1) LU hi (List.pairwise_cons.mp hj).2
          (fun c hc => hs c (List.mem_cons_of_mem _ hc))]
        constructor
        · exact fun h => h.cons _
        · intro h
          rcases List.sublist_cons_iff.mp h with h | ⟨r, hr, hsub⟩
          · exact h
          · exfalso
            cases ilen with
            | zero => exact List.cons_ne_nil _ _ (by rw [colsWin_zero] at hr; exact hr.symm)
            | succ il =>
              rw [colsWin_succ] at hr
              have : getn colind icnt = getn colind jcnt := (List.cons.injEq _ _ _ _ ▸ hr).1
              omega
      · have hlt : getn colind icnt < getn colind jcnt := by omega
        simp only [lu_mergeLoop, if_neg hmatch, if_neg hgt]
        constructor
        · rintro ⟨LU', h⟩
          exact absurd h (by simp)
        · intro hsub
          exfalso
          cases ilen with
          | zero =>
            have h2 := hs (getn colind jcnt) (List.mem_cons_self _ _)
            rw [Nat.add_zero] at h2
            omega
          | succ il =>
            rw [colsWin_succ] at hsub
            have hmem : getn colind icnt ∈ getn colind jcnt :: colsWin colind (jcnt+1) jl :=
              hsub.subset (List.mem_cons_self _ _)
            rcases List.mem_cons.mp hmem with h | h
            · omega
            · have := (List.pairwise_cons.mp hj).1 _ h
              omega

/-- Counterexample to C2 as stated: a full `mju_factorLUSparse` run in
which, while eliminating row `i = 2` into row `j = 0`, column `0` is
present in row `j`'s remaining set and absent in row `i`'s, yet the
call returns successfully (no fatal report) - the merge is asymmetric,
so "regardless of which row holds the extra column" is false.  The
second conjunct isolates the very merge call (empty `i` window against
`j` window `[0]`) returning `.ok`. -/
theorem claim_C2_counterexample :
    mju_factorLUSparse [4, 2, 1, 2] 3 [2, 1, 1] [0, 2, 3] [0, 2, 1, 2]
      = .ok ([4, 1, 1, 2], [0, 0, 0])
    ∧ lu_mergeLoop [0, 2, 1, 2] 1 3 1 3 0 1 [4, 1, 1, 2] = .ok [4, 1, 1, 2]
    ∧ colsWin [0, 2, 1, 2] 3 0 ≠ colsWin [0, 2, 1, 2] 0 1 := by
  refine ⟨by with_unfolding_all decide, by with_unfolding_all decide, by decide⟩

theorem claim_C2_merge_subset_witness :
    (colsWin [0, 2, 1, 2] 3 0).Pairwise (· < ·)
    ∧ (colsWin [0, 2, 1, 2] 0 1).Pairwise (· < ·)
    ∧ (∀ c ∈ colsWin [0, 2, 1, 2] 0 1, c < getn [0, 2, 1, 2] (3 + 0))
    ∧ ((∃ LU', lu_mergeLoop [0, 2, 1, 2] 1 ((3 : Int) + ((0 : Nat) : Int))
        (((0 : Nat) : Int) + ((1 : Nat) : Int)) 3 0 1 [4, 1, 1, 2] = .ok LU')
      ↔ List.Sublist (colsWin [0, 2, 1, 2] 3 0) (colsWin [0, 2, 1, 2] 0 1)) := by
  refine ⟨by decide, by decide, by decide, ?_⟩
  exact claim_C2_merge_subset [0, 2, 1, 2] 1 1 0 3 0 [4, 1, 1, 2]
    (by decide) (by decide) (by decide)
